import Mathlib

set_option linter.unusedSectionVars false

/-!
Shallow embedding of `src/LFUCache.cpp`, a fixed-capacity key-value cache
with least-frequently-used eviction.  The C++ class keeps

* `mKeyMetaByKey : unordered_map<K, KeyMeta>` — key to (frequency, value,
  position); modelled as an association list `List (K × KeyMeta V)` on
  which lookup, insert-or-assign and erase act like the `unordered_map`
  operations (the `iter` position handle is implicit: it is the key's
  unique occurrence inside its frequency bucket, invariant I4);
* `mKeysByFreq : unordered_map<int, list<K>>` — frequency to the
  recency-ordered list of keys at that frequency (front = most recently
  touched); modelled as a total function `Nat → List K`, matching
  `operator[]`, which yields an empty list for an absent frequency;
* `mCapacity : size_t` and `mMinFreq : int`, modelled as `Nat`
  (`mMinFreq` starts at 0 and only ever grows).
-/

section AssocOps

variable {K A : Type} [DecidableEq K]

/-- Lookup in an association list; models `unordered_map::find` and
`operator[]` reads on `mKeyMetaByKey`. -/
def lookupA : List (K × A) → K → Option A
  | [], _ => none
  | (k, a) :: rest, key => if key = k then some a else lookupA rest key

/-- Insert-or-assign; models `mKeyMetaByKey[key] = meta` (replaces the
binding when the key is present, otherwise adds one). -/
def insertA : List (K × A) → K → A → List (K × A)
  | [], key, a => [(key, a)]
  | (k, b) :: rest, key, a =>
    if key = k then (key, a) :: rest else (k, b) :: insertA rest key a

/-- Erase a key's binding; models `mKeyMetaByKey.erase(key)`. -/
def eraseA : List (K × A) → K → List (K × A)
  | [], _ => []
  | (k, b) :: rest, key => if key = k then rest else (k, b) :: eraseA rest key

/-- Remove a key's occurrence from a plain list; models
`list::erase(iter)` where `iter` points at the key's unique occurrence. -/
def eraseKey : List K → K → List K
  | [], _ => []
  | x :: xs, k => if x = k then xs else x :: eraseKey xs k

end AssocOps

/-- Point update of a total function; models writing one slot of
`mKeysByFreq`. -/
def updF {A : Type} (f : Nat → A) (i : Nat) (a : A) : Nat → A :=
  fun j => if j = i then a else f j

/-- Per-key metadata stored in `mKeyMetaByKey` (the C++ `KeyMeta` without
the `iter` position handle, which is implicit in the list embedding). -/
structure KeyMeta (V : Type) where
  freq : Nat
  val : V
deriving DecidableEq

section UpdateVal

variable {K V : Type} [DecidableEq K]

/-- Assign only the value field of a present key's metadata; models
`mKeyMetaByKey[key].val = val` in `put` (the key is present there). -/
def setVal : List (K × KeyMeta V) → K → V → List (K × KeyMeta V)
  | [], _, _ => []
  | (k, m) :: rest, key, v =>
    if key = k then (k, ⟨m.freq, v⟩) :: rest else (k, m) :: setVal rest key v

end UpdateVal

/-- The cache state: capacity, tracked minimum frequency, frequency
buckets and the key index, exactly the four fields of the C++ class. -/
structure LFUCache (K V : Type) where
  mCapacity : Nat
  mMinFreq : Nat
  mKeysByFreq : Nat → List K
  mKeyMetaByKey : List (K × KeyMeta V)

namespace LFUCache

variable {K V : Type} [DecidableEq K] [Inhabited V]

/-- State produced by the constructor body: given capacity, `mMinFreq = 0`,
everything empty. -/
def init (capacity : Nat) : LFUCache K V :=
  ⟨capacity, 0, fun _ => [], []⟩

/-- The constructor including its guard: `capacity` is the `size_t`
parameter; `capacity <= 0` throws `std::invalid_argument`. -/
def construct (capacity : Nat) : Except String (LFUCache K V) :=
  if capacity ≤ 0 then
    Except.error "Capacity cannot be less than or equal to zero."
  else
    Except.ok (init capacity)

/-- Conversion of a C++ `int` capacity argument to the constructor's
`size_t` parameter: the standard implicit conversion reduces the value
modulo 2^64 (so `-1` becomes `2^64 - 1`). -/
def sizeTOfInt (c : Int) : Nat :=
  (c % (2 ^ 64 : Int)).toNat

/-- Constructing the cache from a caller-supplied `int` capacity, as the
repository's own (commented) test `LFUCache<int, int> negCapCache(-1)`
does: the argument first undergoes the `int` → `size_t` conversion. -/
def constructFromInt (c : Int) : Except String (LFUCache K V) :=
  construct (sizeTOfInt c)

/-- Membership test, `contains`: true iff the key index has the key. -/
def contains (c : LFUCache K V) (key : K) : Bool :=
  (lookupA c.mKeyMetaByKey key).isSome

/-- Emptiness test, `empty`. -/
def empty (c : LFUCache K V) : Bool :=
  c.mKeyMetaByKey.isEmpty

/-- Entry count, `size` (`unordered_map::size`, the number of bindings). -/
def size (c : LFUCache K V) : Nat :=
  c.mKeyMetaByKey.length

/-- The `touch` member: move `key` from its current frequency bucket to
the front of the next one and bump its stored frequency; afterwards, if
the bucket at `mMinFreq` is empty, increment `mMinFreq`.  `touch` is only
reached with the key present (`get` and `put` guard it by `contains`); on
an absent key the C++ code erases an invalid iterator (undefined
behaviour), modelled as a no-op. -/
def touch (c : LFUCache K V) (key : K) : LFUCache K V :=
  match lookupA c.mKeyMetaByKey key with
  | none => c
  | some keyMeta =>
    let oldFreq := keyMeta.freq
    let newFreq := oldFreq + 1
    let buckets1 := updF c.mKeysByFreq oldFreq (eraseKey (c.mKeysByFreq oldFreq) key)
    let buckets2 := updF buckets1 newFreq (key :: buckets1 newFreq)
    let meta1 := insertA c.mKeyMetaByKey key ⟨newFreq, keyMeta.val⟩
    let c1 : LFUCache K V := { c with mKeysByFreq := buckets2, mKeyMetaByKey := meta1 }
    if (c1.mKeysByFreq c1.mMinFreq).isEmpty then
      { c1 with mMinFreq := c1.mMinFreq + 1 }
    else
      c1

/-- The `evict` member: drop the back (least recently touched) key of the
bucket at `mMinFreq` and erase its index entry.  `list::back`/`pop_back`
on an empty list is undefined behaviour in C++; the invariant proved
below shows the bucket is non-empty whenever `evict` runs, so the `none`
branch (modelled as a no-op) is never taken from the public interface. -/
def evict (c : LFUCache K V) : LFUCache K V :=
  match (c.mKeysByFreq c.mMinFreq).getLast? with
  | none => c
  | some key =>
    { c with
      mKeyMetaByKey := eraseA c.mKeyMetaByKey key,
      mKeysByFreq := updF c.mKeysByFreq c.mMinFreq (c.mKeysByFreq c.mMinFreq).dropLast }

/-- The `put` member: on a present key, `touch` it and overwrite its
value; on a new key, evict if at capacity, then reset `mMinFreq` to 1 and
insert the key at the front of bucket 1 with frequency 1. -/
def put (c : LFUCache K V) (key : K) (val : V) : LFUCache K V :=
  if c.contains key then
    let c1 := c.touch key
    { c1 with mKeyMetaByKey := setVal c1.mKeyMetaByKey key val }
  else
    let c1 := if c.size = c.mCapacity then c.evict else c
    let c2 : LFUCache K V := { c1 with mMinFreq := 1 }
    let c3 : LFUCache K V := { c2 with mKeysByFreq := updF c2.mKeysByFreq 1 (key :: c2.mKeysByFreq 1) }
    { c3 with mKeyMetaByKey := insertA c3.mKeyMetaByKey key ⟨1, val⟩ }

/-- The `get` member: on a hit, `touch` the key and return its stored
value; on a miss, insert a default-constructed value via `put` and return
it.  Returns the value together with the updated state. -/
def get (c : LFUCache K V) (key : K) : V × LFUCache K V :=
  if c.contains key then
    let c1 := c.touch key
    (match lookupA c1.mKeyMetaByKey key with
     | some m => m.val
     | none => default, c1)
  else
    let defaultVal : V := default
    (defaultVal, c.put key defaultVal)

/-- Recorded frequency of a key (0 when absent; present keys always have
frequency ≥ 1). -/
def freqOf (c : LFUCache K V) (key : K) : Nat :=
  ((lookupA c.mKeyMetaByKey key).map KeyMeta.freq).getD 0

/-- Stored value of a key (`default` when absent). -/
def valOf (c : LFUCache K V) (key : K) : V :=
  ((lookupA c.mKeyMetaByKey key).map KeyMeta.val).getD default

end LFUCache

/-- One public operation of the cache interface. -/
inductive Op (K V : Type) where
  | get (key : K)
  | put (key : K) (val : V)
  | contains (key : K)
  | size
  | empty

variable {K V : Type} [DecidableEq K] [Inhabited V]

/-- State transition of one public operation.  `contains`, `size` and
`empty` are `const` member functions and leave the state unchanged. -/
def applyOp (c : LFUCache K V) : Op K V → LFUCache K V
  | .get key => (c.get key).2
  | .put key val => c.put key val
  | .contains _ => c
  | .size => c
  | .empty => c

/-- Run a sequence of public operations from a given state. -/
def runOps (c : LFUCache K V) : List (Op K V) → LFUCache K V
  | [] => c
  | op :: ops => runOps (applyOp c op) ops

/-- States reachable from a successfully constructed cache (capacity ≥ 1,
i.e. the constructor did not throw) by public operations. -/
inductive Reachable : LFUCache K V → Prop where
  | init : ∀ capacity, 1 ≤ capacity → Reachable (LFUCache.init capacity)
  | step : ∀ c op, Reachable c → Reachable (applyOp c op)

/-- Key named by an operation, when any. -/
def Op.key {K V : Type} : Op K V → Option K
  | .get k => some k
  | .put k _ => some k
  | .contains _ => none
  | .size => none
  | .empty => none

/-!
Ghost instrumentation for recency.  The cache itself stores recency only
as the order of each bucket; to state "least-recently-touched" we pair
the state with a logical clock and the last time each key was touched
(inserted, hit by `get`, or written by `put`).  The instrumentation never
feeds back into the cache: its `cache` component evolves exactly by
`applyOp`.
-/

/-- Cache state paired with ghost recency data. -/
structure GCache (K V : Type) where
  cache : LFUCache K V
  clock : Nat
  lastTouch : List (K × Nat)

/-- Freshly constructed instrumented cache. -/
def GCache.init (capacity : Nat) : GCache K V :=
  ⟨LFUCache.init capacity, 0, []⟩

/-- Time a key was last touched (0 if never). -/
def touchTime (g : GCache K V) (key : K) : Nat :=
  (lookupA g.lastTouch key).getD 0

/-- Instrumented transition: `get key` and `put key _` both leave `key`
at the front of its bucket, so they stamp `key` with the current clock;
the read-only operations change nothing. -/
def gApplyOp (g : GCache K V) : Op K V → GCache K V
  | .get key => ⟨applyOp g.cache (.get key), g.clock + 1, insertA g.lastTouch key g.clock⟩
  | .put key val => ⟨applyOp g.cache (.put key val), g.clock + 1, insertA g.lastTouch key g.clock⟩
  | .contains _ => g
  | .size => g
  | .empty => g

/-- Reachable instrumented states. -/
inductive GReachable : GCache K V → Prop where
  | init : ∀ capacity, 1 ≤ capacity → GReachable (GCache.init capacity)
  | step : ∀ g op, GReachable g → GReachable (gApplyOp g op)

/-- The representation invariant of the cache (spec invariants I1-I4):
positive immutable capacity, size within capacity, no duplicate index
entries or bucket entries, a key sits in bucket `f` exactly when its
index entry records frequency `f` (so its position handle is its unique
occurrence there), recorded frequencies are ≥ 1, and `mMinFreq` is a
lower bound on all non-empty buckets with the `mMinFreq` bucket non-empty
whenever the cache is. -/
structure CacheInv (c : LFUCache K V) : Prop where
  capPos : 1 ≤ c.mCapacity
  sizeLe : c.size ≤ c.mCapacity
  nodupKeys : (c.mKeyMetaByKey.map Prod.fst).Nodup
  bucketNodup : ∀ f, (c.mKeysByFreq f).Nodup
  mem_bucket_iff : ∀ k f,
    k ∈ c.mKeysByFreq f ↔ ∃ meta, lookupA c.mKeyMetaByKey k = some meta ∧ meta.freq = f
  freqPos : ∀ k meta, lookupA c.mKeyMetaByKey k = some meta → 1 ≤ meta.freq
  minFreq_le : ∀ f, c.mKeysByFreq f ≠ [] → c.mMinFreq ≤ f
  minFreq_bucket : c.mKeyMetaByKey ≠ [] → c.mKeysByFreq c.mMinFreq ≠ []

/-- Ghost invariant: the cache invariant, every recorded touch time lies
strictly below the clock, every key residing in some bucket has a
recorded touch time, and every bucket is strictly sorted by touch time
(front = most recent, back = least recent). -/
structure GInv (g : GCache K V) : Prop where
  cacheInv : CacheInv g.cache
  clock_bound : ∀ k t, lookupA g.lastTouch k = some t → t < g.clock
  hasTime : ∀ f k, k ∈ g.cache.mKeysByFreq f → (lookupA g.lastTouch k).isSome = true
  sorted : ∀ f, (g.cache.mKeysByFreq f).Pairwise (fun a b => touchTime g b < touchTime g a)

/-!
Lemmas about the association-list operations.
-/

section AssocLemmas

variable {K A : Type} [DecidableEq K]

theorem lookupA_insertA_self (m : List (K × A)) (key : K) (a : A) :
    lookupA (insertA m key a) key = some a := by
  induction m with
  | nil => simp [insertA, lookupA]
  | cons hd tl ih =>
    obtain ⟨k, b⟩ := hd
    by_cases h : key = k
    · simp [insertA, lookupA, h]
    · simp [insertA, lookupA, h, ih]

theorem lookupA_insertA_ne (m : List (K × A)) {key key' : K} (a : A) (h : key' ≠ key) :
    lookupA (insertA m key a) key' = lookupA m key' := by
  induction m with
  | nil => simp [insertA, lookupA, h]
  | cons hd tl ih =>
    obtain ⟨k, b⟩ := hd
    by_cases hk : key = k
    · subst hk
      simp [insertA, lookupA, h]
    · simp only [insertA, if_neg hk, lookupA]
      by_cases hk' : key' = k
      · simp [hk']
      · simp [hk', ih]

theorem mem_keys_insertA (m : List (K × A)) (key k' : K) (a : A) :
    k' ∈ (insertA m key a).map Prod.fst ↔ k' ∈ m.map Prod.fst ∨ k' = key := by
  induction m with
  | nil => simp [insertA]
  | cons hd tl ih =>
    obtain ⟨k, b⟩ := hd
    simp only [insertA]
    by_cases hk : key = k
    · rw [if_pos hk]
      subst hk
      simp only [List.map_cons, List.mem_cons]
      tauto
    · rw [if_neg hk]
      simp only [List.map_cons, List.mem_cons, ih]
      tauto

theorem nodup_keys_insertA (m : List (K × A)) (key : K) (a : A)
    (h : (m.map Prod.fst).Nodup) : ((insertA m key a).map Prod.fst).Nodup := by
  induction m with
  | nil => simp [insertA]
  | cons hd tl ih =>
    obtain ⟨k, b⟩ := hd
    simp only [List.map_cons, List.nodup_cons] at h
    by_cases hk : key = k
    · subst hk
      simpa [insertA, List.nodup_cons] using h
    · simp only [insertA, if_neg hk, List.map_cons, List.nodup_cons]
      refine ⟨?_, ih h.2⟩
      rw [mem_keys_insertA]
      rintro (hmem | rfl)
      · exact h.1 hmem
      · exact hk rfl

theorem length_insertA_of_isSome (m : List (K × A)) (key : K) (a : A)
    (h : (lookupA m key).isSome = true) : (insertA m key a).length = m.length := by
  induction m with
  | nil => simp [lookupA] at h
  | cons hd tl ih =>
    obtain ⟨k, b⟩ := hd
    by_cases hk : key = k
    · simp [insertA, hk]
    · simp only [lookupA, if_neg hk] at h
      simp [insertA, if_neg hk, ih h]

theorem length_insertA_of_none (m : List (K × A)) (key : K) (a : A)
    (h : lookupA m key = none) : (insertA m key a).length = m.length + 1 := by
  induction m with
  | nil => simp [insertA]
  | cons hd tl ih =>
    obtain ⟨k, b⟩ := hd
    by_cases hk : key = k
    · simp [lookupA, if_pos hk] at h
    · simp only [lookupA, if_neg hk] at h
      simp [insertA, if_neg hk, ih h]

theorem eraseA_sublist (m : List (K × A)) (key : K) : (eraseA m key).Sublist m := by
  induction m with
  | nil => simp [eraseA]
  | cons hd tl ih =>
    obtain ⟨k, b⟩ := hd
    by_cases hk : key = k
    · simp only [eraseA, if_pos hk]
      exact List.sublist_cons_self (k, b) tl
    · simpa [eraseA, if_neg hk] using ih.cons₂ (k, b)

theorem lookupA_eraseA_ne (m : List (K × A)) {key key' : K} (h : key' ≠ key) :
    lookupA (eraseA m key) key' = lookupA m key' := by
  induction m with
  | nil => simp [eraseA]
  | cons hd tl ih =>
    obtain ⟨k, b⟩ := hd
    by_cases hk : key = k
    · subst hk
      simp [eraseA, lookupA, if_neg h]
    · simp only [eraseA, if_neg hk, lookupA]
      by_cases hk' : key' = k
      · simp [hk']
      · simp [hk', ih]

theorem lookupA_isSome_iff (m : List (K × A)) (key : K) :
    (lookupA m key).isSome = true ↔ key ∈ m.map Prod.fst := by
  induction m with
  | nil => simp [lookupA]
  | cons hd tl ih =>
    obtain ⟨k, b⟩ := hd
    by_cases hk : key = k
    · simp [lookupA, if_pos hk, hk]
    · simp [lookupA, if_neg hk, hk, ih]

theorem lookupA_eraseA_self (m : List (K × A)) (key : K)
    (h : (m.map Prod.fst).Nodup) : lookupA (eraseA m key) key = none := by
  induction m with
  | nil => simp [eraseA, lookupA]
  | cons hd tl ih =>
    obtain ⟨k, b⟩ := hd
    simp only [List.map_cons, List.nodup_cons] at h
    by_cases hk : key = k
    · subst hk
      simp only [eraseA, if_pos rfl]
      cases hl : lookupA tl key with
      | none => exact hl
      | some a =>
        exact absurd ((lookupA_isSome_iff tl key).mp (by simp [hl])) h.1
    · simp only [eraseA, if_neg hk, lookupA, if_neg hk]
      exact ih h.2

theorem length_eraseA_of_isSome (m : List (K × A)) (key : K)
    (h : (lookupA m key).isSome = true) : (eraseA m key).length + 1 = m.length := by
  induction m with
  | nil => simp [lookupA] at h
  | cons hd tl ih =>
    obtain ⟨k, b⟩ := hd
    by_cases hk : key = k
    · simp [eraseA, if_pos hk]
    · simp only [lookupA, if_neg hk] at h
      simp [eraseA, if_neg hk, ih h]

theorem eraseA_of_none (m : List (K × A)) (key : K)
    (h : lookupA m key = none) : eraseA m key = m := by
  induction m with
  | nil => simp [eraseA]
  | cons hd tl ih =>
    obtain ⟨k, b⟩ := hd
    by_cases hk : key = k
    · simp [lookupA, if_pos hk] at h
    · simp only [lookupA, if_neg hk] at h
      simp [eraseA, if_neg hk, ih h]

end AssocLemmas

section SetValLemmas

variable {K V : Type} [DecidableEq K]

theorem lookupA_setVal_self (m : List (K × KeyMeta V)) (key : K) (v : V) :
    lookupA (setVal m key v) key
      = (lookupA m key).map (fun meta => ⟨meta.freq, v⟩) := by
  induction m with
  | nil => simp [setVal, lookupA]
  | cons hd tl ih =>
    obtain ⟨k, b⟩ := hd
    simp only [setVal]
    by_cases hk : key = k
    · rw [if_pos hk]
      simp [lookupA, if_pos hk]
    · rw [if_neg hk]
      simp [lookupA, if_neg hk, ih]

theorem lookupA_setVal_ne (m : List (K × KeyMeta V)) {key key' : K} (v : V)
    (h : key' ≠ key) : lookupA (setVal m key v) key' = lookupA m key' := by
  induction m with
  | nil => simp [setVal]
  | cons hd tl ih =>
    obtain ⟨k, b⟩ := hd
    simp only [setVal]
    by_cases hk : key = k
    · rw [if_pos hk]
      subst hk
      simp [lookupA, if_neg h]
    · rw [if_neg hk]
      simp only [lookupA]
      by_cases hk' : key' = k
      · simp [hk']
      · simp [hk', ih]

theorem keys_setVal (m : List (K × KeyMeta V)) (key : K) (v : V) :
    (setVal m key v).map Prod.fst = m.map Prod.fst := by
  induction m with
  | nil => simp [setVal]
  | cons hd tl ih =>
    obtain ⟨k, b⟩ := hd
    simp only [setVal]
    by_cases hk : key = k
    · rw [if_pos hk]
      simp
    · rw [if_neg hk]
      simp [ih]

theorem length_setVal (m : List (K × KeyMeta V)) (key : K) (v : V) :
    (setVal m key v).length = m.length := by
  induction m with
  | nil => simp [setVal]
  | cons hd tl ih =>
    obtain ⟨k, b⟩ := hd
    simp only [setVal]
    by_cases hk : key = k
    · rw [if_pos hk]
      simp
    · rw [if_neg hk]
      simp [ih]

end SetValLemmas

section EraseKeyLemmas

variable {K : Type} [DecidableEq K]

theorem eraseKey_sublist (l : List K) (k : K) : (eraseKey l k).Sublist l := by
  induction l with
  | nil => simp [eraseKey]
  | cons x xs ih =>
    simp only [eraseKey]
    by_cases hx : x = k
    · rw [if_pos hx]
      exact List.sublist_cons_self x xs
    · rw [if_neg hx]
      exact ih.cons₂ x

theorem mem_of_mem_eraseKey {l : List K} {k x : K} (h : x ∈ eraseKey l k) : x ∈ l :=
  (eraseKey_sublist l k).mem h

theorem mem_eraseKey_of_ne {l : List K} {k x : K} (hx : x ≠ k) :
    x ∈ eraseKey l k ↔ x ∈ l := by
  induction l with
  | nil => simp [eraseKey]
  | cons y ys ih =>
    simp only [eraseKey]
    by_cases hy : y = k
    · rw [if_pos hy]
      subst hy
      simp [List.mem_cons, hx]
    · rw [if_neg hy]
      simp [List.mem_cons, ih]

theorem not_mem_eraseKey_self {l : List K} (hnd : l.Nodup) (k : K) :
    k ∉ eraseKey l k := by
  induction l with
  | nil => simp [eraseKey]
  | cons y ys ih =>
    simp only [List.nodup_cons] at hnd
    simp only [eraseKey]
    by_cases hy : y = k
    · rw [if_pos hy]
      subst hy
      exact hnd.1
    · rw [if_neg hy]
      simp only [List.mem_cons]
      rintro (rfl | h)
      · exact hy rfl
      · exact ih hnd.2 h

theorem mem_eraseKey_iff {l : List K} (hnd : l.Nodup) (k x : K) :
    x ∈ eraseKey l k ↔ x ∈ l ∧ x ≠ k := by
  by_cases hx : x = k
  · subst hx
    simp [not_mem_eraseKey_self hnd]
  · simp [mem_eraseKey_of_ne hx, hx]

theorem eraseKey_of_not_mem {l : List K} {k : K} (h : k ∉ l) : eraseKey l k = l := by
  induction l with
  | nil => simp [eraseKey]
  | cons y ys ih =>
    simp only [List.mem_cons, not_or] at h
    simp only [eraseKey]
    rw [if_neg (fun hy => h.1 hy.symm)]
    rw [ih h.2]

theorem length_eraseKey_of_mem {l : List K} {k : K} (h : k ∈ l) :
    (eraseKey l k).length + 1 = l.length := by
  induction l with
  | nil => simp at h
  | cons y ys ih =>
    simp only [eraseKey]
    by_cases hy : y = k
    · rw [if_pos hy]
      simp
    · rw [if_neg hy]
      have hk : k ∈ ys := by
        rcases List.mem_cons.mp h with rfl | hm
        · exact absurd rfl hy
        · exact hm
      simp [ih hk]

end EraseKeyLemmas

@[simp] theorem updF_self {A : Type} (f : Nat → A) (i : Nat) (a : A) :
    updF f i a i = a := by
  simp [updF]

theorem updF_ne {A : Type} (f : Nat → A) {i j : Nat} (a : A) (h : j ≠ i) :
    updF f i a j = f j := by
  simp [updF, h]

/-!
Characterizations of the cache operations, by the branch taken.
-/

namespace LFUCache

variable {K V : Type} [DecidableEq K] [Inhabited V]

theorem contains_iff_lookup (c : LFUCache K V) (key : K) :
    c.contains key = true ↔ ∃ meta, lookupA c.mKeyMetaByKey key = some meta := by
  unfold contains
  cases lookupA c.mKeyMetaByKey key <;> simp

theorem contains_false_iff_lookup (c : LFUCache K V) (key : K) :
    c.contains key = false ↔ lookupA c.mKeyMetaByKey key = none := by
  unfold contains
  cases lookupA c.mKeyMetaByKey key <;> simp

theorem touch_spec (c : LFUCache K V) (key : K) (meta : KeyMeta V)
    (h : lookupA c.mKeyMetaByKey key = some meta) :
    (c.touch key).mCapacity = c.mCapacity ∧
    (c.touch key).mKeyMetaByKey = insertA c.mKeyMetaByKey key ⟨meta.freq + 1, meta.val⟩ ∧
    (c.touch key).mKeysByFreq
      = updF (updF c.mKeysByFreq meta.freq (eraseKey (c.mKeysByFreq meta.freq) key))
          (meta.freq + 1) (key :: c.mKeysByFreq (meta.freq + 1)) ∧
    (c.touch key).mMinFreq
      = if ((c.touch key).mKeysByFreq c.mMinFreq).isEmpty then c.mMinFreq + 1
        else c.mMinFreq := by
  have hne : meta.freq + 1 ≠ meta.freq := Nat.succ_ne_self _
  have hb : updF c.mKeysByFreq meta.freq (eraseKey (c.mKeysByFreq meta.freq) key)
      (meta.freq + 1) = c.mKeysByFreq (meta.freq + 1) := updF_ne _ _ hne
  simp only [touch, h, hb]
  split <;> simp_all

theorem evict_spec (c : LFUCache K V) (key : K)
    (h : (c.mKeysByFreq c.mMinFreq).getLast? = some key) :
    c.evict
      = { c with
          mKeyMetaByKey := eraseA c.mKeyMetaByKey key,
          mKeysByFreq := updF c.mKeysByFreq c.mMinFreq (c.mKeysByFreq c.mMinFreq).dropLast } := by
  simp [evict, h]

theorem evict_mCapacity (c : LFUCache K V) : (c.evict).mCapacity = c.mCapacity := by
  unfold evict
  split <;> rfl

theorem evict_mMinFreq (c : LFUCache K V) : (c.evict).mMinFreq = c.mMinFreq := by
  unfold evict
  split <;> rfl

theorem put_hit_spec (c : LFUCache K V) (key : K) (val : V)
    (h : c.contains key = true) :
    c.put key val
      = { c.touch key with mKeyMetaByKey := setVal (c.touch key).mKeyMetaByKey key val } := by
  simp [put, h]

theorem put_new_spec (c : LFUCache K V) (key : K) (val : V)
    (h : c.contains key = false) :
    c.put key val
      = { mCapacity := (if c.size = c.mCapacity then c.evict else c).mCapacity,
          mMinFreq := 1,
          mKeysByFreq :=
            updF (if c.size = c.mCapacity then c.evict else c).mKeysByFreq 1
              (key :: (if c.size = c.mCapacity then c.evict else c).mKeysByFreq 1),
          mKeyMetaByKey :=
            insertA (if c.size = c.mCapacity then c.evict else c).mKeyMetaByKey key
              ⟨1, val⟩ } := by
  simp only [put, h, Bool.false_eq_true, if_false]

theorem get_miss_spec (c : LFUCache K V) (key : K)
    (h : c.contains key = false) :
    c.get key = ((default : V), c.put key default) := by
  simp [get, h]

theorem touch_lookup_self (c : LFUCache K V) (key : K) (meta : KeyMeta V)
    (h : lookupA c.mKeyMetaByKey key = some meta) :
    lookupA (c.touch key).mKeyMetaByKey key = some ⟨meta.freq + 1, meta.val⟩ := by
  rw [(touch_spec c key meta h).2.1]
  exact lookupA_insertA_self _ _ _

theorem touch_lookup_ne (c : LFUCache K V) {key key' : K} (meta : KeyMeta V)
    (h : lookupA c.mKeyMetaByKey key = some meta) (hne : key' ≠ key) :
    lookupA (c.touch key).mKeyMetaByKey key' = lookupA c.mKeyMetaByKey key' := by
  rw [(touch_spec c key meta h).2.1]
  exact lookupA_insertA_ne _ _ hne

theorem get_hit_spec (c : LFUCache K V) (key : K) (meta : KeyMeta V)
    (h : lookupA c.mKeyMetaByKey key = some meta) :
    c.get key = (meta.val, c.touch key) := by
  have hc : c.contains key = true := by
    simp [contains, h]
  simp only [get, hc, if_pos, touch_lookup_self c key meta h]

end LFUCache

theorem insertA_ne_nil {K A : Type} [DecidableEq K] (m : List (K × A)) (key : K) (a : A) :
    insertA m key a ≠ [] := by
  cases m with
  | nil => simp [insertA]
  | cons hd tl =>
    obtain ⟨k, b⟩ := hd
    simp only [insertA]
    split <;> simp

/-!
Preservation of the representation invariant.
-/

namespace LFUCache

variable {K V : Type} [DecidableEq K] [Inhabited V]

theorem cacheInv_init (capacity : Nat) (h : 1 ≤ capacity) :
    CacheInv (init (K := K) (V := V) capacity) := by
  refine ⟨h, by simp [size, init], by simp [init], by simp [init], ?_, ?_, ?_, ?_⟩
  · intro k f
    simp [init, lookupA]
  · intro k meta hm
    simp [init, lookupA] at hm
  · intro f hf
    simp [init] at hf
  · intro hne
    simp [init] at hne

theorem cacheInv_touch (c : LFUCache K V) (key : K) (meta : KeyMeta V)
    (hInv : CacheInv c) (h : lookupA c.mKeyMetaByKey key = some meta) :
    CacheInv (c.touch key) := by
  obtain ⟨hcap, hsize, hnd, hbnd, hmem, hfp, hmle, hmb⟩ := hInv
  obtain ⟨hsCap, hsMap, hsBuckets, hsMin⟩ := touch_spec c key meta h
  have hmap_ne : c.mKeyMetaByKey ≠ [] := by
    intro hn
    rw [hn] at h
    simp [lookupA] at h
  have hkey_mem : key ∈ c.mKeysByFreq meta.freq := (hmem key meta.freq).mpr ⟨meta, h, rfl⟩
  have hkey_not_mem : ∀ g, g ≠ meta.freq → key ∉ c.mKeysByFreq g := by
    intro g hg hk
    obtain ⟨m', hm', hf'⟩ := (hmem key g).mp hk
    rw [h] at hm'
    obtain rfl : meta = m' := by injection hm'
    exact hg hf'.symm
  have hbucket : ∀ g, (c.touch key).mKeysByFreq g
      = if g = meta.freq + 1 then key :: c.mKeysByFreq (meta.freq + 1)
        else if g = meta.freq then eraseKey (c.mKeysByFreq meta.freq) key
        else c.mKeysByFreq g := by
    intro g
    rw [hsBuckets]
    simp [updF]
  have hlook : ∀ k, lookupA (c.touch key).mKeyMetaByKey k
      = if k = key then some ⟨meta.freq + 1, meta.val⟩ else lookupA c.mKeyMetaByKey k := by
    intro k
    rw [hsMap]
    by_cases hk : k = key
    · subst hk
      simp [lookupA_insertA_self]
    · simp [hk, lookupA_insertA_ne _ _ hk]
  have hTmincases :
      ((c.touch key).mMinFreq = c.mMinFreq ∧ (c.touch key).mKeysByFreq c.mMinFreq ≠ [])
      ∨ ((c.touch key).mMinFreq = c.mMinFreq + 1
          ∧ (c.touch key).mKeysByFreq c.mMinFreq = []) := by
    rw [hsMin]
    split
    · next hcond =>
      right
      exact ⟨rfl, List.isEmpty_iff.mp hcond⟩
    · next hcond =>
      left
      refine ⟨rfl, ?_⟩
      simpa [List.isEmpty_iff] using hcond
  have hbucket_nonempty : ∀ g, (c.touch key).mKeysByFreq g ≠ [] → c.mMinFreq ≤ g := by
    intro g hg
    rcases eq_or_ne g (meta.freq + 1) with rfl | hg1
    · exact le_trans (hmle meta.freq (List.ne_nil_of_mem hkey_mem)) (Nat.le_succ _)
    · rcases eq_or_ne g meta.freq with rfl | hg2
      · exact hmle meta.freq (List.ne_nil_of_mem hkey_mem)
      · rw [hbucket g, if_neg hg1, if_neg hg2] at hg
        exact hmle g hg
  constructor
  · rw [hsCap]
    exact hcap
  · show (c.touch key).mKeyMetaByKey.length ≤ (c.touch key).mCapacity
    rw [hsMap, hsCap]
    rw [length_insertA_of_isSome _ _ _ (by simp [h])]
    exact hsize
  · rw [hsMap]
    exact nodup_keys_insertA _ _ _ hnd
  · intro g
    rw [hbucket g]
    rcases eq_or_ne g (meta.freq + 1) with rfl | hg1
    · rw [if_pos rfl]
      exact List.nodup_cons.mpr ⟨hkey_not_mem _ (Nat.succ_ne_self _), hbnd _⟩
    · rw [if_neg hg1]
      rcases eq_or_ne g meta.freq with rfl | hg2
      · rw [if_pos rfl]
        exact (eraseKey_sublist _ _).nodup (hbnd _)
      · rw [if_neg hg2]
        exact hbnd g
  · intro k g
    rw [hbucket g, hlook k]
    by_cases hk : k = key
    · subst hk
      rw [if_pos rfl]
      constructor
      · intro hmem'
        rcases eq_or_ne g (meta.freq + 1) with rfl | hg1
        · exact ⟨⟨meta.freq + 1, meta.val⟩, rfl, rfl⟩
        · rw [if_neg hg1] at hmem'
          rcases eq_or_ne g meta.freq with rfl | hg2
          · rw [if_pos rfl] at hmem'
            exact absurd hmem' (not_mem_eraseKey_self (hbnd _) _)
          · rw [if_neg hg2] at hmem'
            exact absurd hmem' (hkey_not_mem g hg2)
      · rintro ⟨m', hm', hf'⟩
        obtain rfl : (⟨meta.freq + 1, meta.val⟩ : KeyMeta V) = m' := by injection hm'
        rw [← hf']
        rw [if_pos rfl]
        exact List.mem_cons_self _ _
    · rw [if_neg hk]
      have hold := hmem k g
      rcases eq_or_ne g (meta.freq + 1) with rfl | hg1
      · rw [if_pos rfl]
        rw [List.mem_cons]
        constructor
        · rintro (rfl | hmem')
          · exact absurd rfl hk
          · exact hold.mp hmem'
        · intro hx
          exact Or.inr (hold.mpr hx)
      · rw [if_neg hg1]
        rcases eq_or_ne g meta.freq with rfl | hg2
        · rw [if_pos rfl]
          rw [mem_eraseKey_of_ne hk]
          exact hold
        · rw [if_neg hg2]
          exact hold
  · intro k m' hm'
    rw [hlook k] at hm'
    by_cases hk : k = key
    · rw [if_pos hk] at hm'
      obtain rfl : (⟨meta.freq + 1, meta.val⟩ : KeyMeta V) = m' := by injection hm'
      exact Nat.succ_le_succ (Nat.zero_le _)
    · rw [if_neg hk] at hm'
      exact hfp k m' hm'
  · intro g hg
    rcases hTmincases with ⟨hT, _⟩ | ⟨hT, hME⟩
    · rw [hT]
      exact hbucket_nonempty g hg
    · rw [hT]
      rcases eq_or_ne g c.mMinFreq with rfl | hgM
      · exact absurd hME hg
      · have := hbucket_nonempty g hg
        omega
  · intro _
    rcases hTmincases with ⟨hT, hne⟩ | ⟨hT, hME⟩
    · rw [hT]
      exact hne
    · have hMf : c.mMinFreq = meta.freq := by
        by_contra hMf
        rcases eq_or_ne c.mMinFreq (meta.freq + 1) with hM1 | hM1
        · rw [hbucket _, if_pos hM1] at hME
          exact List.cons_ne_nil _ _ hME
        · rw [hbucket _, if_neg hM1, if_neg hMf] at hME
          exact hmb hmap_ne hME
      rw [hT, hMf]
      rw [hbucket _, if_pos rfl]
      exact List.cons_ne_nil _ _

end LFUCache

section GetLastHelpers

variable {K : Type}

theorem dropLast_append_of_getLast (l : List K) (ev : K) (h : l.getLast? = some ev) :
    l.dropLast ++ [ev] = l :=
  List.dropLast_append_getLast? ev (Option.mem_def.mpr h)

theorem mem_of_getLast (l : List K) (ev : K) (h : l.getLast? = some ev) : ev ∈ l := by
  rw [← dropLast_append_of_getLast l ev h]
  simp

theorem mem_dropLast_iff_of_ne (l : List K) (ev x : K) (h : l.getLast? = some ev)
    (hx : x ≠ ev) : x ∈ l.dropLast ↔ x ∈ l := by
  conv_rhs => rw [← dropLast_append_of_getLast l ev h]
  simp [List.mem_append, hx]

theorem not_mem_dropLast_of_nodup (l : List K) (ev : K) (h : l.getLast? = some ev)
    (hnd : l.Nodup) : ev ∉ l.dropLast := by
  rw [← dropLast_append_of_getLast l ev h] at hnd
  rw [List.nodup_append] at hnd
  intro hmem
  exact List.disjoint_left.mp hnd.2.2 hmem (List.mem_singleton_self ev)

theorem getLast_exists_of_ne_nil (l : List K) (h : l ≠ []) :
    ∃ ev, l.getLast? = some ev := by
  cases hl : l.getLast? with
  | none => exact absurd (List.getLast?_eq_none_iff.mp hl) h
  | some ev => exact ⟨ev, rfl⟩

end GetLastHelpers

namespace LFUCache

variable {K V : Type} [DecidableEq K] [Inhabited V]

theorem cacheInv_setVal (c : LFUCache K V) (key : K) (val : V) (hInv : CacheInv c) :
    CacheInv { c with mKeyMetaByKey := setVal c.mKeyMetaByKey key val } := by
  obtain ⟨hcap, hsize, hnd, hbnd, hmem, hfp, hmle, hmb⟩ := hInv
  have hlookfreq : ∀ k f,
      (∃ m', lookupA (setVal c.mKeyMetaByKey key val) k = some m' ∧ m'.freq = f)
        ↔ (∃ m', lookupA c.mKeyMetaByKey k = some m' ∧ m'.freq = f) := by
    intro k f
    by_cases hk : k = key
    · subst hk
      rw [lookupA_setVal_self]
      cases hl : lookupA c.mKeyMetaByKey k with
      | none => simp
      | some m0 => simp
    · rw [lookupA_setVal_ne _ _ hk]
  constructor
  · exact hcap
  · show (setVal c.mKeyMetaByKey key val).length ≤ c.mCapacity
    rw [length_setVal]
    exact hsize
  · show ((setVal c.mKeyMetaByKey key val).map Prod.fst).Nodup
    rw [keys_setVal]
    exact hnd
  · exact hbnd
  · intro k f
    exact (hmem k f).trans (hlookfreq k f).symm
  · intro k m' hm'
    by_cases hk : k = key
    · subst hk
      rw [lookupA_setVal_self] at hm'
      cases hl : lookupA c.mKeyMetaByKey k with
      | none =>
        rw [hl] at hm'
        simp at hm'
      | some m0 =>
        rw [hl] at hm'
        obtain rfl : (⟨m0.freq, val⟩ : KeyMeta V) = m' := by
          injection hm'
        exact hfp k m0 hl
    · rw [lookupA_setVal_ne _ _ hk] at hm'
      exact hfp k m' hm'
  · exact hmle
  · intro hne
    apply hmb
    intro h0
    apply hne
    show setVal c.mKeyMetaByKey key val = []
    rw [h0]
    rfl

theorem evict_facts (c : LFUCache K V) (hInv : CacheInv c) (hne : c.mKeyMetaByKey ≠ []) :
    ∃ ev : K,
      (c.mKeysByFreq c.mMinFreq).getLast? = some ev ∧
      (∃ meta, lookupA c.mKeyMetaByKey ev = some meta ∧ meta.freq = c.mMinFreq) ∧
      (c.evict).mCapacity = c.mCapacity ∧
      (c.evict).mMinFreq = c.mMinFreq ∧
      ((c.evict).mKeyMetaByKey.map Prod.fst).Nodup ∧
      (∀ f, ((c.evict).mKeysByFreq f).Nodup) ∧
      (∀ k f, k ∈ (c.evict).mKeysByFreq f
        ↔ ∃ m', lookupA (c.evict).mKeyMetaByKey k = some m' ∧ m'.freq = f) ∧
      (∀ k m', lookupA (c.evict).mKeyMetaByKey k = some m' → 1 ≤ m'.freq) ∧
      (c.evict).size + 1 = c.size ∧
      (∀ k, k ≠ ev → lookupA (c.evict).mKeyMetaByKey k = lookupA c.mKeyMetaByKey k) ∧
      lookupA (c.evict).mKeyMetaByKey ev = none := by
  obtain ⟨hcap, hsize, hnd, hbnd, hmem, hfp, hmle, hmb⟩ := hInv
  obtain ⟨ev, hev⟩ := getLast_exists_of_ne_nil _ (hmb hne)
  obtain ⟨mev, hmev, hfev⟩ := (hmem ev c.mMinFreq).mp (mem_of_getLast _ ev hev)
  have hspec := evict_spec c ev hev
  have hmapE : (c.evict).mKeyMetaByKey = eraseA c.mKeyMetaByKey ev := by
    rw [hspec]
  have hbucketsE : (c.evict).mKeysByFreq
      = updF c.mKeysByFreq c.mMinFreq (c.mKeysByFreq c.mMinFreq).dropLast := by
    rw [hspec]
  have hbucketE : ∀ g, (c.evict).mKeysByFreq g
      = if g = c.mMinFreq then (c.mKeysByFreq c.mMinFreq).dropLast else c.mKeysByFreq g := by
    intro g
    rw [hbucketsE]
    simp [updF]
  have hlookE : ∀ k, k ≠ ev →
      lookupA (c.evict).mKeyMetaByKey k = lookupA c.mKeyMetaByKey k := by
    intro k hk
    rw [hmapE]
    exact lookupA_eraseA_ne _ hk
  have hlookEv : lookupA (c.evict).mKeyMetaByKey ev = none := by
    rw [hmapE]
    exact lookupA_eraseA_self _ _ hnd
  have hev_not_mem : ∀ g, g ≠ c.mMinFreq → ev ∉ c.mKeysByFreq g := by
    intro g hg hk
    obtain ⟨m', hm', hf'⟩ := (hmem ev g).mp hk
    rw [hmev] at hm'
    obtain rfl : mev = m' := by injection hm'
    exact hg (hf' ▸ hfev ▸ rfl)
  refine ⟨ev, hev, ⟨mev, hmev, hfev⟩, by rw [hspec], by rw [hspec], ?_, ?_, ?_, ?_, ?_, hlookE, hlookEv⟩
  · rw [hmapE]
    exact ((eraseA_sublist _ _).map Prod.fst).nodup hnd
  · intro g
    rw [hbucketE g]
    rcases eq_or_ne g c.mMinFreq with rfl | hg
    · rw [if_pos rfl]
      exact (List.dropLast_sublist _).nodup (hbnd _)
    · rw [if_neg hg]
      exact hbnd g
  · intro k g
    rw [hbucketE g]
    by_cases hk : k = ev
    · subst hk
      rw [hlookEv]
      have hfalse : ¬∃ m', (none : Option (KeyMeta V)) = some m' ∧ m'.freq = g := by
        rintro ⟨m', hm', _⟩
        exact Option.noConfusion hm'
      rcases eq_or_ne g c.mMinFreq with rfl | hg
      · rw [if_pos rfl]
        exact iff_of_false (not_mem_dropLast_of_nodup _ _ hev (hbnd _)) hfalse
      · rw [if_neg hg]
        exact iff_of_false (hev_not_mem g hg) hfalse
    · rw [hlookE k hk]
      rcases eq_or_ne g c.mMinFreq with rfl | hg
      · rw [if_pos rfl]
        rw [mem_dropLast_iff_of_ne _ ev k hev hk]
        exact hmem k c.mMinFreq
      · rw [if_neg hg]
        exact hmem k g
  · intro k m' hm'
    by_cases hk : k = ev
    · subst hk
      rw [hlookEv] at hm'
      simp at hm'
    · rw [hlookE k hk] at hm'
      exact hfp k m' hm'
  · show (c.evict).mKeyMetaByKey.length + 1 = c.mKeyMetaByKey.length
    rw [hmapE]
    exact length_eraseA_of_isSome _ _ (by simp [hmev])

theorem put_new_aux (d : LFUCache K V) (key : K) (val : V)
    (hcap : 1 ≤ d.mCapacity)
    (hnd : (d.mKeyMetaByKey.map Prod.fst).Nodup)
    (hbnd : ∀ f, (d.mKeysByFreq f).Nodup)
    (hmem : ∀ k f, k ∈ d.mKeysByFreq f
      ↔ ∃ m', lookupA d.mKeyMetaByKey k = some m' ∧ m'.freq = f)
    (hfp : ∀ k m', lookupA d.mKeyMetaByKey k = some m' → 1 ≤ m'.freq)
    (hsz : d.size + 1 ≤ d.mCapacity)
    (habs : lookupA d.mKeyMetaByKey key = none) :
    CacheInv { mCapacity := d.mCapacity, mMinFreq := 1,
               mKeysByFreq := updF d.mKeysByFreq 1 (key :: d.mKeysByFreq 1),
               mKeyMetaByKey := insertA d.mKeyMetaByKey key ⟨1, val⟩ } := by
  have hkey_not_mem : ∀ g, key ∉ d.mKeysByFreq g := by
    intro g hg
    obtain ⟨m', hm', _⟩ := (hmem key g).mp hg
    rw [habs] at hm'
    exact Option.noConfusion hm'
  have hbucket : ∀ g, updF d.mKeysByFreq 1 (key :: d.mKeysByFreq 1) g
      = if g = 1 then key :: d.mKeysByFreq 1 else d.mKeysByFreq g := by
    intro g
    simp [updF]
  have hlook : ∀ k, lookupA (insertA d.mKeyMetaByKey key ⟨1, val⟩) k
      = if k = key then some ⟨1, val⟩ else lookupA d.mKeyMetaByKey k := by
    intro k
    by_cases hk : k = key
    · subst hk
      simp [lookupA_insertA_self]
    · simp [hk, lookupA_insertA_ne _ _ hk]
  constructor
  · exact hcap
  · show (insertA d.mKeyMetaByKey key ⟨1, val⟩).length ≤ d.mCapacity
    rw [length_insertA_of_none _ _ _ habs]
    exact hsz
  · exact nodup_keys_insertA _ _ _ hnd
  · intro g
    show (updF d.mKeysByFreq 1 (key :: d.mKeysByFreq 1) g).Nodup
    rw [hbucket g]
    rcases eq_or_ne g 1 with rfl | hg
    · rw [if_pos rfl]
      exact List.nodup_cons.mpr ⟨hkey_not_mem 1, hbnd 1⟩
    · rw [if_neg hg]
      exact hbnd g
  · intro k g
    show k ∈ updF d.mKeysByFreq 1 (key :: d.mKeysByFreq 1) g ↔ _
    rw [hbucket g, hlook k]
    by_cases hk : k = key
    · subst hk
      rw [if_pos rfl]
      constructor
      · intro hmem'
        rcases eq_or_ne g 1 with rfl | hg
        · exact ⟨⟨1, val⟩, rfl, rfl⟩
        · rw [if_neg hg] at hmem'
          exact absurd hmem' (hkey_not_mem g)
      · rintro ⟨m', hm', hf'⟩
        obtain rfl : (⟨1, val⟩ : KeyMeta V) = m' := by injection hm'
        rw [← hf', if_pos rfl]
        exact List.mem_cons_self _ _
    · rw [if_neg hk]
      rcases eq_or_ne g 1 with rfl | hg
      · rw [if_pos rfl, List.mem_cons]
        constructor
        · rintro (rfl | hmem')
          · exact absurd rfl hk
          · exact (hmem k 1).mp hmem'
        · intro hx
          exact Or.inr ((hmem k 1).mpr hx)
      · rw [if_neg hg]
        exact hmem k g
  · intro k m' hm'
    rw [hlook k] at hm'
    by_cases hk : k = key
    · rw [if_pos hk] at hm'
      obtain rfl : (⟨1, val⟩ : KeyMeta V) = m' := by injection hm'
      exact le_refl 1
    · rw [if_neg hk] at hm'
      exact hfp k m' hm'
  · intro g hg
    show 1 ≤ g
    rcases Nat.eq_zero_or_pos g with rfl | hpos
    · exfalso
      have hg' : updF d.mKeysByFreq 1 (key :: d.mKeysByFreq 1) 0 ≠ [] := hg
      rw [hbucket 0, if_neg (by omega : (0 : Nat) ≠ 1)] at hg'
      obtain ⟨x, hx⟩ := List.exists_mem_of_ne_nil _ hg'
      obtain ⟨m', hm', hf'⟩ := (hmem x 0).mp hx
      have := hfp x m' hm'
      omega
    · exact hpos
  · intro _
    show updF d.mKeysByFreq 1 (key :: d.mKeysByFreq 1) 1 ≠ []
    rw [hbucket 1, if_pos rfl]
    exact List.cons_ne_nil _ _

theorem cacheInv_put (c : LFUCache K V) (key : K) (val : V) (hInv : CacheInv c) :
    CacheInv (c.put key val) := by
  by_cases hc : c.contains key = true
  · rw [put_hit_spec c key val hc]
    obtain ⟨meta, h⟩ := (contains_iff_lookup c key).mp hc
    exact cacheInv_setVal _ key val (cacheInv_touch c key meta hInv h)
  · have hcF : c.contains key = false := by
      simpa using hc
    have habs : lookupA c.mKeyMetaByKey key = none :=
      (contains_false_iff_lookup c key).mp hcF
    rw [put_new_spec c key val hcF]
    by_cases hfull : c.size = c.mCapacity
    · rw [if_pos hfull]
      have hne : c.mKeyMetaByKey ≠ [] := by
        have : 0 < c.size := lt_of_lt_of_le hInv.capPos (le_of_eq hfull.symm)
        exact List.length_pos.mp this
      obtain ⟨ev, hev, ⟨mev, hmev, hfev⟩, hcapE, hminE, hndE, hbndE, hmemE, hfpE,
        hszE, hlookE, hlookEv⟩ := evict_facts c hInv hne
      refine put_new_aux c.evict key val ?_ hndE hbndE hmemE hfpE ?_ ?_
      · rw [hcapE]
        exact hInv.capPos
      · rw [hcapE, hszE, hfull]
      · have hkev : key ≠ ev := by
          intro hkey
          rw [hkey, hmev] at habs
          exact Option.noConfusion habs
        rw [hlookE key hkev]
        exact habs
    · rw [if_neg hfull]
      refine put_new_aux c key val hInv.capPos hInv.nodupKeys hInv.bucketNodup
        hInv.mem_bucket_iff hInv.freqPos ?_ habs
      have := hInv.sizeLe
      omega

theorem cacheInv_get (c : LFUCache K V) (key : K) (hInv : CacheInv c) :
    CacheInv (c.get key).2 := by
  by_cases hc : c.contains key = true
  · obtain ⟨meta, h⟩ := (contains_iff_lookup c key).mp hc
    rw [get_hit_spec c key meta h]
    exact cacheInv_touch c key meta hInv h
  · have hcF : c.contains key = false := by
      simpa using hc
    rw [get_miss_spec c key hcF]
    exact cacheInv_put c key default hInv

theorem cacheInv_applyOp (c : LFUCache K V) (op : Op K V) (hInv : CacheInv c) :
    CacheInv (applyOp c op) := by
  cases op with
  | get key => exact cacheInv_get c key hInv
  | put key val => exact cacheInv_put c key val hInv
  | contains key => exact hInv
  | size => exact hInv
  | empty => exact hInv

theorem reachable_cacheInv (c : LFUCache K V) (h : Reachable c) : CacheInv c := by
  induction h with
  | init cap hcap => exact cacheInv_init cap hcap
  | step c op hr ih => exact cacheInv_applyOp c op ih

theorem touch_mCapacity (c : LFUCache K V) (key : K) :
    (c.touch key).mCapacity = c.mCapacity := by
  cases h : lookupA c.mKeyMetaByKey key with
  | none => simp [touch, h]
  | some meta => exact (touch_spec c key meta h).1

theorem put_mCapacity (c : LFUCache K V) (key : K) (val : V) :
    (c.put key val).mCapacity = c.mCapacity := by
  by_cases hc : c.contains key = true
  · rw [put_hit_spec c key val hc]
    exact touch_mCapacity c key
  · have hcF : c.contains key = false := by
      simpa using hc
    rw [put_new_spec c key val hcF]
    show (if c.size = c.mCapacity then c.evict else c).mCapacity = c.mCapacity
    split
    · exact evict_mCapacity c
    · rfl

theorem get_mCapacity (c : LFUCache K V) (key : K) :
    ((c.get key).2).mCapacity = c.mCapacity := by
  by_cases hc : c.contains key = true
  · obtain ⟨meta, h⟩ := (contains_iff_lookup c key).mp hc
    rw [get_hit_spec c key meta h]
    exact touch_mCapacity c key
  · have hcF : c.contains key = false := by
      simpa using hc
    rw [get_miss_spec c key hcF]
    exact put_mCapacity c key default

end LFUCache

theorem applyOp_mCapacity {K V : Type} [DecidableEq K] [Inhabited V]
    (c : LFUCache K V) (op : Op K V) : (applyOp c op).mCapacity = c.mCapacity := by
  cases op with
  | get key => exact LFUCache.get_mCapacity c key
  | put key val => exact LFUCache.put_mCapacity c key val
  | contains key => rfl
  | size => rfl
  | empty => rfl

theorem runOps_mCapacity {K V : Type} [DecidableEq K] [Inhabited V]
    (c : LFUCache K V) (ops : List (Op K V)) : (runOps c ops).mCapacity = c.mCapacity := by
  induction ops generalizing c with
  | nil => rfl
  | cons op ops ih => rw [runOps, ih, applyOp_mCapacity]

theorem runOps_reachable {K V : Type} [DecidableEq K] [Inhabited V]
    (c : LFUCache K V) (ops : List (Op K V)) (h : Reachable c) :
    Reachable (runOps c ops) := by
  induction ops generalizing c with
  | nil => exact h
  | cons op ops ih => exact ih (applyOp c op) (Reachable.step c op h)

namespace LFUCache

variable {K V : Type} [DecidableEq K] [Inhabited V]

theorem put_lookup_self (c : LFUCache K V) (key : K) (val : V) :
    ∃ f, lookupA (c.put key val).mKeyMetaByKey key = some ⟨f, val⟩ := by
  by_cases hc : c.contains key = true
  · obtain ⟨meta, h⟩ := (contains_iff_lookup c key).mp hc
    rw [put_hit_spec c key val hc]
    refine ⟨meta.freq + 1, ?_⟩
    show lookupA (setVal (c.touch key).mKeyMetaByKey key val) key = _
    rw [lookupA_setVal_self, touch_lookup_self c key meta h]
    rfl
  · have hcF : c.contains key = false := by
      simpa using hc
    rw [put_new_spec c key val hcF]
    exact ⟨1, lookupA_insertA_self _ _ _⟩

end LFUCache

/-!
The claims.
-/

/-- C2: for every capacity c ≥ 1 and every finite sequence of public
operations run from a cache constructed with capacity c, the reported
size is at most c.  Since the sequence is arbitrary, taking prefixes
gives the bound after every intermediate operation as well. -/
theorem C2_size_le_capacity {K V : Type} [DecidableEq K] [Inhabited V]
    (capacity : Nat) (h : 1 ≤ capacity) (ops : List (Op K V)) :
    (runOps (LFUCache.init capacity) ops).size ≤ capacity := by
  have hreach : Reachable (runOps (LFUCache.init (K := K) (V := V) capacity) ops) :=
    runOps_reachable _ ops (Reachable.init capacity h)
  have hInv := LFUCache.reachable_cacheInv _ hreach
  have hcap : (runOps (LFUCache.init (K := K) (V := V) capacity) ops).mCapacity = capacity :=
    runOps_mCapacity _ ops
  exact le_trans hInv.sizeLe (le_of_eq hcap)

/-- Witness for C2 at capacity 1 with two inserts. -/
theorem C2_size_le_capacity_witness :
    1 ≤ 1 ∧ (runOps (LFUCache.init 1 : LFUCache Nat Nat) [Op.put 1 1, Op.put 2 2]).size ≤ 1 :=
  ⟨by decide, C2_size_le_capacity 1 (by decide) [Op.put 1 1, Op.put 2 2]⟩

/-- C4: putting (k, v) and then immediately getting k returns v, in any
state (so in particular in every reachable one). -/
theorem C4_put_then_get {K V : Type} [DecidableEq K] [Inhabited V]
    (c : LFUCache K V) (key : K) (val : V) :
    ((c.put key val).get key).1 = val := by
  obtain ⟨f, hf⟩ := LFUCache.put_lookup_self c key val
  rw [LFUCache.get_hit_spec (c.put key val) key ⟨f, val⟩ hf]

/-- C5: getting an absent key returns the default-constructed value, the
resulting state is exactly that of `put key default` (including a
possible eviction when the cache was at capacity), and afterwards the key
is present. -/
theorem C5_get_miss {K V : Type} [DecidableEq K] [Inhabited V]
    (c : LFUCache K V) (key : K) (h : c.contains key = false) :
    (c.get key).1 = (default : V)
    ∧ (c.get key).2 = c.put key default
    ∧ ((c.get key).2).contains key = true := by
  rw [LFUCache.get_miss_spec c key h]
  refine ⟨rfl, rfl, ?_⟩
  show (c.put key default).contains key = true
  obtain ⟨f, hf⟩ := LFUCache.put_lookup_self c key default
  simp [LFUCache.contains, hf]

/-- Witness for C5 on a freshly constructed cache of capacity 1. -/
theorem C5_get_miss_witness :
    (LFUCache.init 1 : LFUCache Nat Nat).contains 5 = false
    ∧ (((LFUCache.init 1 : LFUCache Nat Nat).get 5).1 = (default : Nat)
        ∧ ((LFUCache.init 1 : LFUCache Nat Nat).get 5).2
            = (LFUCache.init 1 : LFUCache Nat Nat).put 5 default
        ∧ (((LFUCache.init 1 : LFUCache Nat Nat).get 5).2).contains 5 = true) :=
  ⟨by decide, C5_get_miss (LFUCache.init 1) 5 (by decide)⟩

/-- C6: the spec and the repository's commented-in test demand that
construction with a negative capacity fail with the invalid-capacity
error, but the `int` → `size_t` conversion wraps −1 to 2^64 − 1, so the
guard `capacity <= 0` does not fire and construction succeeds; the guard
only rejects capacity 0. -/
theorem C6_construct_neg_capacity_not_rejected :
    ((-1 : Int) ≤ 0)
    ∧ LFUCache.constructFromInt (K := Nat) (V := Nat) (-1)
        = Except.ok (LFUCache.init (2 ^ 64 - 1))
    ∧ LFUCache.construct (K := Nat) (V := Nat) 0
        = Except.error "Capacity cannot be less than or equal to zero." := by
  refine ⟨by decide, ?_, rfl⟩
  rfl

/-- C9: `contains`, `size` and `empty` are pure: as operations they leave
the state unchanged, `contains` is true exactly when the key is in the
key index, `size` is the number of index entries and `empty` holds
exactly when the size is 0. -/
theorem C9_queries_pure {K V : Type} [DecidableEq K] [Inhabited V]
    (c : LFUCache K V) (key : K) :
    applyOp c (Op.contains key) = c
    ∧ applyOp c (Op.size : Op K V) = c
    ∧ applyOp c (Op.empty : Op K V) = c
    ∧ (c.contains key = true ↔ key ∈ c.mKeyMetaByKey.map Prod.fst)
    ∧ c.size = c.mKeyMetaByKey.length
    ∧ (c.empty = true ↔ c.size = 0) := by
  refine ⟨rfl, rfl, rfl, ?_, rfl, ?_⟩
  · exact lookupA_isSome_iff _ _
  · simp [LFUCache.empty, LFUCache.size, List.isEmpty_iff, List.length_eq_zero]

/-- C8: `put` on an already-present key overwrites the stored value,
performs exactly the same state change as a `get` hit apart from the
value (same buckets, same minimum frequency, same frequencies), bumps the
key's frequency by one, creates no entry, evicts nothing, and keeps the
size — with no assumption that the cache is below capacity. -/
theorem C8_put_existing {K V : Type} [DecidableEq K] [Inhabited V]
    (c : LFUCache K V) (key : K) (val : V) (h : c.contains key = true) :
    (c.put key val).valOf key = val
    ∧ (c.put key val).size = c.size
    ∧ (∀ j, (c.put key val).contains j = c.contains j)
    ∧ (∀ j, j ≠ key → (c.put key val).valOf j = c.valOf j)
    ∧ (c.put key val).freqOf key = c.freqOf key + 1
    ∧ (c.put key val).mMinFreq = ((c.get key).2).mMinFreq
    ∧ (c.put key val).mKeysByFreq = ((c.get key).2).mKeysByFreq
    ∧ (∀ j, (c.put key val).freqOf j = ((c.get key).2).freqOf j) := by
  obtain ⟨meta, hm⟩ := (LFUCache.contains_iff_lookup c key).mp h
  have hputspec := LFUCache.put_hit_spec c key val h
  have hgetspec := LFUCache.get_hit_spec c key meta hm
  have hTlook_self := LFUCache.touch_lookup_self c key meta hm
  have hPmap : (c.put key val).mKeyMetaByKey
      = setVal (c.touch key).mKeyMetaByKey key val := by
    rw [hputspec]
  have hPlook_self : lookupA (c.put key val).mKeyMetaByKey key
      = some ⟨meta.freq + 1, val⟩ := by
    rw [hPmap, lookupA_setVal_self, hTlook_self]
    rfl
  have hPlook_ne : ∀ j, j ≠ key →
      lookupA (c.put key val).mKeyMetaByKey j = lookupA c.mKeyMetaByKey j := by
    intro j hj
    rw [hPmap, lookupA_setVal_ne _ _ hj, LFUCache.touch_lookup_ne c meta hm hj]
  refine ⟨?_, ?_, ?_, ?_, ?_, ?_, ?_, ?_⟩
  · simp [LFUCache.valOf, hPlook_self]
  · show (c.put key val).mKeyMetaByKey.length = c.mKeyMetaByKey.length
    rw [hPmap, length_setVal, (LFUCache.touch_spec c key meta hm).2.1,
      length_insertA_of_isSome _ _ _ (by simp [hm])]
  · intro j
    by_cases hj : j = key
    · subst hj
      simp [LFUCache.contains, hPlook_self, hm]
    · simp [LFUCache.contains, hPlook_ne j hj]
  · intro j hj
    simp [LFUCache.valOf, hPlook_ne j hj]
  · simp [LFUCache.freqOf, hPlook_self, hm]
  · rw [hputspec, hgetspec]
  · rw [hputspec, hgetspec]
  · intro j
    by_cases hj : j = key
    · subst hj
      rw [hgetspec]
      simp [LFUCache.freqOf, hPlook_self, hTlook_self]
    · rw [hgetspec]
      simp [LFUCache.freqOf, hPlook_ne j hj, LFUCache.touch_lookup_ne c meta hm hj]

/-- Witness for C8: put of an existing key on a full cache of capacity 1. -/
theorem C8_put_existing_witness :
    ((LFUCache.init 1 : LFUCache Nat Nat).put 7 1).contains 7 = true
    ∧ ((((LFUCache.init 1 : LFUCache Nat Nat).put 7 1).put 7 2).valOf 7 = 2
        ∧ (((LFUCache.init 1 : LFUCache Nat Nat).put 7 1).put 7 2).size
            = ((LFUCache.init 1 : LFUCache Nat Nat).put 7 1).size
        ∧ (∀ j, (((LFUCache.init 1 : LFUCache Nat Nat).put 7 1).put 7 2).contains j
            = ((LFUCache.init 1 : LFUCache Nat Nat).put 7 1).contains j)
        ∧ (∀ j, j ≠ 7 → (((LFUCache.init 1 : LFUCache Nat Nat).put 7 1).put 7 2).valOf j
            = ((LFUCache.init 1 : LFUCache Nat Nat).put 7 1).valOf j)
        ∧ (((LFUCache.init 1 : LFUCache Nat Nat).put 7 1).put 7 2).freqOf 7
            = ((LFUCache.init 1 : LFUCache Nat Nat).put 7 1).freqOf 7 + 1
        ∧ (((LFUCache.init 1 : LFUCache Nat Nat).put 7 1).put 7 2).mMinFreq
            = ((((LFUCache.init 1 : LFUCache Nat Nat).put 7 1).get 7).2).mMinFreq
        ∧ (((LFUCache.init 1 : LFUCache Nat Nat).put 7 1).put 7 2).mKeysByFreq
            = ((((LFUCache.init 1 : LFUCache Nat Nat).put 7 1).get 7).2).mKeysByFreq
        ∧ (∀ j, (((LFUCache.init 1 : LFUCache Nat Nat).put 7 1).put 7 2).freqOf j
            = ((((LFUCache.init 1 : LFUCache Nat Nat).put 7 1).get 7).2).freqOf j)) :=
  ⟨by decide, C8_put_existing ((LFUCache.init 1 : LFUCache Nat Nat).put 7 1) 7 2 (by decide)⟩

/-- C10: a `get` on a present key changes neither membership, nor size,
nor any stored value; the whole state change is the key's frequency
increment, its move to the front of the next frequency bucket (leaving
all other buckets untouched), and a possible increment of the tracked
minimum frequency. -/
theorem C10_get_hit_frame {K V : Type} [DecidableEq K] [Inhabited V]
    (c : LFUCache K V) (key : K) (h : c.contains key = true) :
    (∀ j, ((c.get key).2).contains j = c.contains j)
    ∧ ((c.get key).2).size = c.size
    ∧ (∀ j, ((c.get key).2).valOf j = c.valOf j)
    ∧ ((c.get key).2).freqOf key = c.freqOf key + 1
    ∧ (∀ j, j ≠ key → ((c.get key).2).freqOf j = c.freqOf j)
    ∧ ((c.get key).2).mKeysByFreq (c.freqOf key)
        = eraseKey (c.mKeysByFreq (c.freqOf key)) key
    ∧ ((c.get key).2).mKeysByFreq (c.freqOf key + 1)
        = key :: c.mKeysByFreq (c.freqOf key + 1)
    ∧ (∀ f, f ≠ c.freqOf key → f ≠ c.freqOf key + 1 →
        ((c.get key).2).mKeysByFreq f = c.mKeysByFreq f)
    ∧ (((c.get key).2).mMinFreq = c.mMinFreq
        ∨ ((c.get key).2).mMinFreq = c.mMinFreq + 1) := by
  obtain ⟨meta, hm⟩ := (LFUCache.contains_iff_lookup c key).mp h
  have hgetspec := LFUCache.get_hit_spec c key meta hm
  obtain ⟨hsCap, hsMap, hsBuckets, hsMin⟩ := LFUCache.touch_spec c key meta hm
  have hTlook_self := LFUCache.touch_lookup_self c key meta hm
  have hfreq : c.freqOf key = meta.freq := by
    simp [LFUCache.freqOf, hm]
  have hT2 : (c.get key).2 = c.touch key := by
    rw [hgetspec]
  have hne1 : meta.freq ≠ meta.freq + 1 := (Nat.succ_ne_self meta.freq).symm
  refine ⟨?_, ?_, ?_, ?_, ?_, ?_, ?_, ?_, ?_⟩
  · intro j
    rw [hT2]
    by_cases hj : j = key
    · subst hj
      simp [LFUCache.contains, hTlook_self, hm]
    · simp [LFUCache.contains, LFUCache.touch_lookup_ne c meta hm hj]
  · rw [hT2]
    show (c.touch key).mKeyMetaByKey.length = c.mKeyMetaByKey.length
    rw [hsMap, length_insertA_of_isSome _ _ _ (by simp [hm])]
  · intro j
    rw [hT2]
    by_cases hj : j = key
    · subst hj
      simp [LFUCache.valOf, hTlook_self, hm]
    · simp [LFUCache.valOf, LFUCache.touch_lookup_ne c meta hm hj]
  · rw [hT2, hfreq]
    simp [LFUCache.freqOf, hTlook_self]
  · intro j hj
    rw [hT2]
    simp [LFUCache.freqOf, LFUCache.touch_lookup_ne c meta hm hj]
  · rw [hT2, hfreq, hsBuckets, updF_ne _ _ hne1, updF_self]
  · rw [hT2, hfreq, hsBuckets, updF_self]
  · intro f hf1 hf2
    rw [hfreq] at hf1 hf2
    rw [hT2, hsBuckets, updF_ne _ _ hf2, updF_ne _ _ hf1]
  · rw [hT2, hsMin]
    split
    · exact Or.inr rfl
    · exact Or.inl rfl

/-- Witness for C10: a hit on a two-element cache. -/
theorem C10_get_hit_frame_witness :
    (runOps (LFUCache.init 3 : LFUCache Nat Nat) [Op.put 1 10, Op.put 2 20]).contains 1 = true
    ∧ ((∀ j, (((runOps (LFUCache.init 3 : LFUCache Nat Nat) [Op.put 1 10, Op.put 2 20]).get 1).2).contains j
          = (runOps (LFUCache.init 3 : LFUCache Nat Nat) [Op.put 1 10, Op.put 2 20]).contains j)
      ∧ (((runOps (LFUCache.init 3 : LFUCache Nat Nat) [Op.put 1 10, Op.put 2 20]).get 1).2).size
          = (runOps (LFUCache.init 3 : LFUCache Nat Nat) [Op.put 1 10, Op.put 2 20]).size
      ∧ (∀ j, (((runOps (LFUCache.init 3 : LFUCache Nat Nat) [Op.put 1 10, Op.put 2 20]).get 1).2).valOf j
          = (runOps (LFUCache.init 3 : LFUCache Nat Nat) [Op.put 1 10, Op.put 2 20]).valOf j)
      ∧ (((runOps (LFUCache.init 3 : LFUCache Nat Nat) [Op.put 1 10, Op.put 2 20]).get 1).2).freqOf 1
          = (runOps (LFUCache.init 3 : LFUCache Nat Nat) [Op.put 1 10, Op.put 2 20]).freqOf 1 + 1
      ∧ (∀ j, j ≠ 1 → (((runOps (LFUCache.init 3 : LFUCache Nat Nat) [Op.put 1 10, Op.put 2 20]).get 1).2).freqOf j
          = (runOps (LFUCache.init 3 : LFUCache Nat Nat) [Op.put 1 10, Op.put 2 20]).freqOf j)
      ∧ (((runOps (LFUCache.init 3 : LFUCache Nat Nat) [Op.put 1 10, Op.put 2 20]).get 1).2).mKeysByFreq
            ((runOps (LFUCache.init 3 : LFUCache Nat Nat) [Op.put 1 10, Op.put 2 20]).freqOf 1)
          = eraseKey ((runOps (LFUCache.init 3 : LFUCache Nat Nat) [Op.put 1 10, Op.put 2 20]).mKeysByFreq
              ((runOps (LFUCache.init 3 : LFUCache Nat Nat) [Op.put 1 10, Op.put 2 20]).freqOf 1)) 1
      ∧ (((runOps (LFUCache.init 3 : LFUCache Nat Nat) [Op.put 1 10, Op.put 2 20]).get 1).2).mKeysByFreq
            ((runOps (LFUCache.init 3 : LFUCache Nat Nat) [Op.put 1 10, Op.put 2 20]).freqOf 1 + 1)
          = 1 :: (runOps (LFUCache.init 3 : LFUCache Nat Nat) [Op.put 1 10, Op.put 2 20]).mKeysByFreq
              ((runOps (LFUCache.init 3 : LFUCache Nat Nat) [Op.put 1 10, Op.put 2 20]).freqOf 1 + 1)
      ∧ (∀ f, f ≠ (runOps (LFUCache.init 3 : LFUCache Nat Nat) [Op.put 1 10, Op.put 2 20]).freqOf 1 →
            f ≠ (runOps (LFUCache.init 3 : LFUCache Nat Nat) [Op.put 1 10, Op.put 2 20]).freqOf 1 + 1 →
            (((runOps (LFUCache.init 3 : LFUCache Nat Nat) [Op.put 1 10, Op.put 2 20]).get 1).2).mKeysByFreq f
              = (runOps (LFUCache.init 3 : LFUCache Nat Nat) [Op.put 1 10, Op.put 2 20]).mKeysByFreq f)
      ∧ ((((runOps (LFUCache.init 3 : LFUCache Nat Nat) [Op.put 1 10, Op.put 2 20]).get 1).2).mMinFreq
            = (runOps (LFUCache.init 3 : LFUCache Nat Nat) [Op.put 1 10, Op.put 2 20]).mMinFreq
          ∨ (((runOps (LFUCache.init 3 : LFUCache Nat Nat) [Op.put 1 10, Op.put 2 20]).get 1).2).mMinFreq
            = (runOps (LFUCache.init 3 : LFUCache Nat Nat) [Op.put 1 10, Op.put 2 20]).mMinFreq + 1)) :=
  ⟨by decide,
    C10_get_hit_frame (runOps (LFUCache.init 3 : LFUCache Nat Nat) [Op.put 1 10, Op.put 2 20]) 1 (by decide)⟩

namespace LFUCache

variable {K V : Type} [DecidableEq K] [Inhabited V]

theorem put_lookup_other (c : LFUCache K V) (hInv : CacheInv c) (j key : K) (v : V)
    (hjk : key ≠ j) (hcont : (c.put j v).contains key = true) :
    lookupA (c.put j v).mKeyMetaByKey key = lookupA c.mKeyMetaByKey key := by
  by_cases hc : c.contains j = true
  · obtain ⟨meta, hm⟩ := (contains_iff_lookup c j).mp hc
    rw [put_hit_spec c j v hc]
    show lookupA (setVal (c.touch j).mKeyMetaByKey j v) key = _
    rw [lookupA_setVal_ne _ _ hjk, touch_lookup_ne c meta hm hjk]
  · have hcF : c.contains j = false := by
      simpa using hc
    rw [put_new_spec c j v hcF] at hcont ⊢
    by_cases hfull : c.size = c.mCapacity
    · rw [if_pos hfull] at hcont ⊢
      have hne : c.mKeyMetaByKey ≠ [] := by
        have : 0 < c.size := lt_of_lt_of_le hInv.capPos (le_of_eq hfull.symm)
        exact List.length_pos.mp this
      obtain ⟨ev, hev, ⟨mev, hmev, hfev⟩, hcapE, hminE, hndE, hbndE, hmemE, hfpE,
        hszE, hlookE, hlookEv⟩ := evict_facts c hInv hne
      show lookupA (insertA (c.evict).mKeyMetaByKey j ⟨1, v⟩) key = _
      rw [lookupA_insertA_ne _ _ hjk]
      by_cases hkev : key = ev
      · exfalso
        have hcont' : (lookupA (insertA (c.evict).mKeyMetaByKey j ⟨1, v⟩) key).isSome
            = true := hcont
        rw [lookupA_insertA_ne _ _ hjk, hkev, hlookEv] at hcont'
        simp at hcont'
      · exact hlookE key hkev
    · rw [if_neg hfull]
      show lookupA (insertA c.mKeyMetaByKey j ⟨1, v⟩) key = _
      rw [lookupA_insertA_ne _ _ hjk]

end LFUCache

/-- C7: on any reachable state, a `get` hit and a `put` to a present key
bump that key's recorded frequency by exactly one; any operation naming a
different key (or no key) leaves the key's frequency unchanged as long as
the key stays resident; consequently a resident key's frequency never
decreases across any operation. -/
theorem C7_freq_monotone {K V : Type} [DecidableEq K] [Inhabited V]
    (c : LFUCache K V) (key : K) (hr : Reachable c) (h : c.contains key = true) :
    ((c.get key).2).freqOf key = c.freqOf key + 1
    ∧ (∀ val, (c.put key val).freqOf key = c.freqOf key + 1)
    ∧ (∀ op : Op K V, op.key ≠ some key → (applyOp c op).contains key = true →
        (applyOp c op).freqOf key = c.freqOf key)
    ∧ (∀ op : Op K V, (applyOp c op).contains key = true →
        c.freqOf key ≤ (applyOp c op).freqOf key) := by
  have hInv := LFUCache.reachable_cacheInv c hr
  obtain ⟨meta, hm⟩ := (LFUCache.contains_iff_lookup c key).mp h
  have hget : ((c.get key).2).freqOf key = c.freqOf key + 1 := by
    rw [LFUCache.get_hit_spec c key meta hm]
    simp [LFUCache.freqOf, LFUCache.touch_lookup_self c key meta hm, hm]
  have hput : ∀ val, (c.put key val).freqOf key = c.freqOf key + 1 := by
    intro val
    rw [LFUCache.put_hit_spec c key val h]
    show ((lookupA (setVal (c.touch key).mKeyMetaByKey key val) key).map KeyMeta.freq).getD 0
      = c.freqOf key + 1
    rw [lookupA_setVal_self, LFUCache.touch_lookup_self c key meta hm]
    simp [LFUCache.freqOf, hm]
  have hother : ∀ op : Op K V, op.key ≠ some key → (applyOp c op).contains key = true →
      (applyOp c op).freqOf key = c.freqOf key := by
    intro op hop hcont
    cases op with
    | get j =>
      have hjk : key ≠ j := by
        intro hkj
        apply hop
        simp [Op.key, hkj]
      by_cases hcj : c.contains j = true
      · obtain ⟨mj, hmj⟩ := (LFUCache.contains_iff_lookup c j).mp hcj
        show ((c.get j).2).freqOf key = c.freqOf key
        rw [LFUCache.get_hit_spec c j mj hmj]
        simp [LFUCache.freqOf, LFUCache.touch_lookup_ne c mj hmj hjk]
      · have hcjF : c.contains j = false := by
          simpa using hcj
        have happ : applyOp c (Op.get j) = c.put j default := by
          show (c.get j).2 = c.put j default
          rw [LFUCache.get_miss_spec c j hcjF]
        rw [happ] at hcont ⊢
        have hl := LFUCache.put_lookup_other c hInv j key default hjk hcont
        simp [LFUCache.freqOf, hl]
    | put j v =>
      have hjk : key ≠ j := by
        intro hkj
        apply hop
        simp [Op.key, hkj]
      show (c.put j v).freqOf key = c.freqOf key
      have hl := LFUCache.put_lookup_other c hInv j key v hjk hcont
      simp [LFUCache.freqOf, hl]
    | contains j => rfl
    | size => rfl
    | empty => rfl
  refine ⟨hget, hput, hother, ?_⟩
  intro op hcont
  cases op with
  | get j =>
    by_cases hjk : j = key
    · subst hjk
      show c.freqOf j ≤ ((c.get j).2).freqOf j
      rw [hget]
      exact Nat.le_succ _
    · have heq := hother (Op.get j) (by simp [Op.key]; exact hjk) hcont
      exact le_of_eq heq.symm
  | put j v =>
    by_cases hjk : j = key
    · subst hjk
      show c.freqOf j ≤ (c.put j v).freqOf j
      rw [hput v]
      exact Nat.le_succ _
    · have heq := hother (Op.put j v) (by simp [Op.key]; exact hjk) hcont
      exact le_of_eq heq.symm
  | contains j => exact le_refl _
  | size => exact le_refl _
  | empty => exact le_refl _

/-- Witness for C7 on a reachable two-element cache. -/
theorem C7_freq_monotone_witness :
    Reachable (runOps (LFUCache.init 2 : LFUCache Nat Nat) [Op.put 1 10, Op.put 2 20])
    ∧ (runOps (LFUCache.init 2 : LFUCache Nat Nat) [Op.put 1 10, Op.put 2 20]).contains 1 = true
    ∧ (((runOps (LFUCache.init 2 : LFUCache Nat Nat) [Op.put 1 10, Op.put 2 20]).get 1).2.freqOf 1
          = (runOps (LFUCache.init 2 : LFUCache Nat Nat) [Op.put 1 10, Op.put 2 20]).freqOf 1 + 1
        ∧ (∀ val, ((runOps (LFUCache.init 2 : LFUCache Nat Nat) [Op.put 1 10, Op.put 2 20]).put 1 val).freqOf 1
          = (runOps (LFUCache.init 2 : LFUCache Nat Nat) [Op.put 1 10, Op.put 2 20]).freqOf 1 + 1)
        ∧ (∀ op : Op Nat Nat, op.key ≠ some 1 →
            (applyOp (runOps (LFUCache.init 2 : LFUCache Nat Nat) [Op.put 1 10, Op.put 2 20]) op).contains 1 = true →
            (applyOp (runOps (LFUCache.init 2 : LFUCache Nat Nat) [Op.put 1 10, Op.put 2 20]) op).freqOf 1
              = (runOps (LFUCache.init 2 : LFUCache Nat Nat) [Op.put 1 10, Op.put 2 20]).freqOf 1)
        ∧ (∀ op : Op Nat Nat,
            (applyOp (runOps (LFUCache.init 2 : LFUCache Nat Nat) [Op.put 1 10, Op.put 2 20]) op).contains 1 = true →
            (runOps (LFUCache.init 2 : LFUCache Nat Nat) [Op.put 1 10, Op.put 2 20]).freqOf 1
              ≤ (applyOp (runOps (LFUCache.init 2 : LFUCache Nat Nat) [Op.put 1 10, Op.put 2 20]) op).freqOf 1)) := by
  have hre : Reachable (runOps (LFUCache.init 2 : LFUCache Nat Nat) [Op.put 1 10, Op.put 2 20]) :=
    Reachable.step _ (Op.put 2 20) (Reachable.step _ (Op.put 1 10) (Reachable.init 2 (by decide)))
  exact ⟨hre, by decide, C7_freq_monotone _ 1 hre (by decide)⟩

/-- C3: on every reachable state, when the key index is non-empty the
tracked minimum frequency is the smallest frequency with a non-empty
bucket (its own bucket is non-empty and it lower-bounds every non-empty
bucket); a `touch` bumps the minimum frequency by exactly one precisely
when the touched key's old bucket empties and that bucket was the
minimum-frequency bucket, and otherwise leaves it unchanged; inserting a
brand-new key resets the minimum frequency to 1. -/
theorem C3_minFreq_invariant {K V : Type} [DecidableEq K] [Inhabited V]
    (c : LFUCache K V) (hr : Reachable c) :
    (c.mKeyMetaByKey ≠ [] →
      c.mKeysByFreq c.mMinFreq ≠ [] ∧ (∀ f, c.mKeysByFreq f ≠ [] → c.mMinFreq ≤ f))
    ∧ (∀ key, c.contains key = true →
        (c.touch key).mMinFreq
          = if eraseKey (c.mKeysByFreq (c.freqOf key)) key = [] ∧ c.freqOf key = c.mMinFreq
            then c.mMinFreq + 1 else c.mMinFreq)
    ∧ (∀ (key : K) (val : V), c.contains key = false → (c.put key val).mMinFreq = 1) := by
  have hInv := LFUCache.reachable_cacheInv c hr
  refine ⟨?_, ?_, ?_⟩
  · intro hne
    exact ⟨hInv.minFreq_bucket hne, hInv.minFreq_le⟩
  · intro key hc
    obtain ⟨meta, hm⟩ := (LFUCache.contains_iff_lookup c key).mp hc
    have hfreq : c.freqOf key = meta.freq := by
      simp [LFUCache.freqOf, hm]
    have hmapne : c.mKeyMetaByKey ≠ [] := by
      intro hn
      rw [hn] at hm
      simp [lookupA] at hm
    have hkeymem : key ∈ c.mKeysByFreq meta.freq :=
      (hInv.mem_bucket_iff key meta.freq).mpr ⟨meta, hm, rfl⟩
    have hsMin := (LFUCache.touch_spec c key meta hm).2.2.2
    have hbM : (c.touch key).mKeysByFreq c.mMinFreq
        = if c.mMinFreq = meta.freq + 1 then key :: c.mKeysByFreq (meta.freq + 1)
          else if c.mMinFreq = meta.freq then eraseKey (c.mKeysByFreq meta.freq) key
          else c.mKeysByFreq c.mMinFreq := by
      rw [(LFUCache.touch_spec c key meta hm).2.2.1]
      simp [updF]
    have hiso : (((c.touch key).mKeysByFreq c.mMinFreq).isEmpty = true)
        ↔ (eraseKey (c.mKeysByFreq meta.freq) key = [] ∧ meta.freq = c.mMinFreq) := by
      rw [List.isEmpty_iff, hbM]
      rcases eq_or_ne c.mMinFreq (meta.freq + 1) with hM1 | hM1
      · have hMle : c.mMinFreq ≤ meta.freq :=
          hInv.minFreq_le _ (List.ne_nil_of_mem hkeymem)
        omega
      · rw [if_neg hM1]
        rcases eq_or_ne c.mMinFreq meta.freq with hMf | hMf
        · rw [if_pos hMf]
          constructor
          · intro hE
            exact ⟨hE, hMf.symm⟩
          · intro hE
            exact hE.1
        · rw [if_neg hMf]
          constructor
          · intro hE
            exact absurd hE (hInv.minFreq_bucket hmapne)
          · rintro ⟨_, hfM⟩
            exact absurd hfM (Ne.symm hMf)
    rw [hfreq, hsMin]
    by_cases hC : eraseKey (c.mKeysByFreq meta.freq) key = [] ∧ meta.freq = c.mMinFreq
    · rw [if_pos (hiso.mpr hC), if_pos hC]
    · rw [if_neg (fun hE => hC (hiso.mp hE)), if_neg hC]
  · intro key val hc
    rw [LFUCache.put_new_spec c key val hc]

/-- Witness for C3 on a reachable two-element cache. -/
theorem C3_minFreq_invariant_witness :
    Reachable (runOps (LFUCache.init 2 : LFUCache Nat Nat) [Op.put 1 10, Op.put 2 20])
    ∧ (((runOps (LFUCache.init 2 : LFUCache Nat Nat) [Op.put 1 10, Op.put 2 20]).mKeyMetaByKey ≠ [] →
        (runOps (LFUCache.init 2 : LFUCache Nat Nat) [Op.put 1 10, Op.put 2 20]).mKeysByFreq
            (runOps (LFUCache.init 2 : LFUCache Nat Nat) [Op.put 1 10, Op.put 2 20]).mMinFreq ≠ []
          ∧ (∀ f, (runOps (LFUCache.init 2 : LFUCache Nat Nat) [Op.put 1 10, Op.put 2 20]).mKeysByFreq f ≠ [] →
              (runOps (LFUCache.init 2 : LFUCache Nat Nat) [Op.put 1 10, Op.put 2 20]).mMinFreq ≤ f))
      ∧ (∀ key, (runOps (LFUCache.init 2 : LFUCache Nat Nat) [Op.put 1 10, Op.put 2 20]).contains key = true →
          ((runOps (LFUCache.init 2 : LFUCache Nat Nat) [Op.put 1 10, Op.put 2 20]).touch key).mMinFreq
            = if eraseKey ((runOps (LFUCache.init 2 : LFUCache Nat Nat) [Op.put 1 10, Op.put 2 20]).mKeysByFreq
                  ((runOps (LFUCache.init 2 : LFUCache Nat Nat) [Op.put 1 10, Op.put 2 20]).freqOf key)) key = []
                ∧ (runOps (LFUCache.init 2 : LFUCache Nat Nat) [Op.put 1 10, Op.put 2 20]).freqOf key
                  = (runOps (LFUCache.init 2 : LFUCache Nat Nat) [Op.put 1 10, Op.put 2 20]).mMinFreq
              then (runOps (LFUCache.init 2 : LFUCache Nat Nat) [Op.put 1 10, Op.put 2 20]).mMinFreq + 1
              else (runOps (LFUCache.init 2 : LFUCache Nat Nat) [Op.put 1 10, Op.put 2 20]).mMinFreq)
      ∧ (∀ (key : Nat) (val : Nat),
          (runOps (LFUCache.init 2 : LFUCache Nat Nat) [Op.put 1 10, Op.put 2 20]).contains key = false →
          ((runOps (LFUCache.init 2 : LFUCache Nat Nat) [Op.put 1 10, Op.put 2 20]).put key val).mMinFreq = 1)) := by
  have hre : Reachable (runOps (LFUCache.init 2 : LFUCache Nat Nat) [Op.put 1 10, Op.put 2 20]) :=
    Reachable.step _ (Op.put 2 20) (Reachable.step _ (Op.put 1 10) (Reachable.init 2 (by decide)))
  exact ⟨hre, C3_minFreq_invariant _ hre⟩

/-!
Preservation of the ghost invariant: every bucket stays strictly sorted
by last-touch time, with the most recent at the front.
-/

section GhostLemmas

variable {K V : Type} [DecidableEq K] [Inhabited V]

theorem clock_bound_step (g : GCache K V) (hGI : GInv g) (key : K) :
    ∀ k t, lookupA (insertA g.lastTouch key g.clock) k = some t → t < g.clock + 1 := by
  intro k t h
  by_cases hkk : k = key
  · subst hkk
    rw [lookupA_insertA_self] at h
    obtain rfl : g.clock = t := by injection h
    omega
  · rw [lookupA_insertA_ne _ _ hkk] at h
    exact Nat.lt_succ_of_lt (hGI.clock_bound k t h)

theorem hasTime_step (g : GCache K V) (hGI : GInv g) (key : K) (buckets' : Nat → List K)
    (hshape : ∀ f, ∃ L, L.Sublist (g.cache.mKeysByFreq f) ∧ key ∉ L
        ∧ (buckets' f = key :: L ∨ buckets' f = L)) :
    ∀ f k, k ∈ buckets' f → (lookupA (insertA g.lastTouch key g.clock) k).isSome = true := by
  intro f k hk
  by_cases hkk : k = key
  · subst hkk
    rw [lookupA_insertA_self]
    rfl
  · rw [lookupA_insertA_ne _ _ hkk]
    obtain ⟨L, hsub, hkL, hcase⟩ := hshape f
    have hkL' : k ∈ L := by
      rcases hcase with hc | hc
      · rw [hc] at hk
        rcases List.mem_cons.mp hk with rfl | h
        · exact absurd rfl hkk
        · exact h
      · rw [hc] at hk
        exact hk
    exact hGI.hasTime f k (hsub.mem hkL')

theorem sorted_step (g : GCache K V) (hGI : GInv g) (key : K) (buckets' : Nat → List K)
    (hshape : ∀ f, ∃ L, L.Sublist (g.cache.mKeysByFreq f) ∧ key ∉ L
        ∧ (buckets' f = key :: L ∨ buckets' f = L)) :
    ∀ f, (buckets' f).Pairwise (fun a b =>
      (lookupA (insertA g.lastTouch key g.clock) b).getD 0
        < (lookupA (insertA g.lastTouch key g.clock) a).getD 0) := by
  intro f
  obtain ⟨L, hsub, hkL, hcase⟩ := hshape f
  have htt : ∀ x ∈ L, (lookupA (insertA g.lastTouch key g.clock) x).getD 0 = touchTime g x := by
    intro x hx
    have hxk : x ≠ key := fun hh => hkL (hh ▸ hx)
    rw [touchTime, lookupA_insertA_ne _ _ hxk]
  have hLsorted' : L.Pairwise (fun a b =>
      (lookupA (insertA g.lastTouch key g.clock) b).getD 0
        < (lookupA (insertA g.lastTouch key g.clock) a).getD 0) := by
    refine ((hGI.sorted f).sublist hsub).imp_of_mem ?_
    intro a b ha hb hr
    rw [htt a ha, htt b hb]
    exact hr
  rcases hcase with hc | hc
  · rw [hc]
    refine List.pairwise_cons.mpr ⟨?_, hLsorted'⟩
    intro b hb
    have hself : (lookupA (insertA g.lastTouch key g.clock) key).getD 0 = g.clock := by
      rw [lookupA_insertA_self]
      rfl
    rw [htt b hb, hself]
    obtain ⟨t, ht⟩ := Option.isSome_iff_exists.mp (hGI.hasTime f b (hsub.mem hb))
    rw [touchTime, ht]
    simpa using hGI.clock_bound b t ht
  · rw [hc]
    exact hLsorted'

end GhostLemmas

namespace LFUCache

variable {K V : Type} [DecidableEq K] [Inhabited V]

theorem evict_bucket_sublist (c : LFUCache K V) :
    ∀ f, ((c.evict).mKeysByFreq f).Sublist (c.mKeysByFreq f) := by
  intro f
  cases h : (c.mKeysByFreq c.mMinFreq).getLast? with
  | none =>
    have he : c.evict = c := by
      simp [evict, h]
    rw [he]
  | some ev =>
    rw [evict_spec c ev h]
    show (updF c.mKeysByFreq c.mMinFreq (c.mKeysByFreq c.mMinFreq).dropLast f).Sublist _
    by_cases hf : f = c.mMinFreq
    · subst hf
      rw [updF_self]
      exact List.dropLast_sublist _
    · rw [updF_ne _ _ hf]

theorem touch_bucket_shape (c : LFUCache K V) (hInv : CacheInv c) (key : K)
    (meta : KeyMeta V) (hm : lookupA c.mKeyMetaByKey key = some meta) :
    ∀ f, ∃ L, L.Sublist (c.mKeysByFreq f) ∧ key ∉ L
      ∧ ((c.touch key).mKeysByFreq f = key :: L ∨ (c.touch key).mKeysByFreq f = L) := by
  have hbucket : ∀ g', (c.touch key).mKeysByFreq g'
      = if g' = meta.freq + 1 then key :: c.mKeysByFreq (meta.freq + 1)
        else if g' = meta.freq then eraseKey (c.mKeysByFreq meta.freq) key
        else c.mKeysByFreq g' := by
    intro g'
    rw [(touch_spec c key meta hm).2.2.1]
    simp [updF]
  have hnotmem : ∀ g', g' ≠ meta.freq → key ∉ c.mKeysByFreq g' := by
    intro g' hg' hk
    obtain ⟨m', hm', hf'⟩ := (hInv.mem_bucket_iff key g').mp hk
    rw [hm] at hm'
    obtain rfl : meta = m' := by injection hm'
    exact hg' hf'.symm
  intro f
  rcases eq_or_ne f (meta.freq + 1) with rfl | hf1
  · refine ⟨c.mKeysByFreq (meta.freq + 1), List.Sublist.refl _,
      hnotmem _ (Nat.succ_ne_self _), Or.inl ?_⟩
    rw [hbucket, if_pos rfl]
  · rcases eq_or_ne f meta.freq with rfl | hf2
    · refine ⟨eraseKey (c.mKeysByFreq meta.freq) key, eraseKey_sublist _ _,
        not_mem_eraseKey_self (hInv.bucketNodup _) _, Or.inr ?_⟩
      rw [hbucket, if_neg hf1, if_pos rfl]
    · refine ⟨c.mKeysByFreq f, List.Sublist.refl _, hnotmem f hf2, Or.inr ?_⟩
      rw [hbucket, if_neg hf1, if_neg hf2]

theorem put_bucket_shape (c : LFUCache K V) (hInv : CacheInv c) (key : K) (val : V) :
    ∀ f, ∃ L, L.Sublist (c.mKeysByFreq f) ∧ key ∉ L
      ∧ ((c.put key val).mKeysByFreq f = key :: L ∨ (c.put key val).mKeysByFreq f = L) := by
  by_cases hc : c.contains key = true
  · obtain ⟨meta, hm⟩ := (contains_iff_lookup c key).mp hc
    have hb : (c.put key val).mKeysByFreq = (c.touch key).mKeysByFreq := by
      rw [put_hit_spec c key val hc]
    intro f
    obtain ⟨L, h1, h2, h3⟩ := touch_bucket_shape c hInv key meta hm f
    refine ⟨L, h1, h2, ?_⟩
    rw [hb]
    exact h3
  · have hcF : c.contains key = false := by
      simpa using hc
    have hkabs : ∀ g', key ∉ c.mKeysByFreq g' := by
      intro g' hk
      obtain ⟨m', hm', _⟩ := (hInv.mem_bucket_iff key g').mp hk
      rw [(contains_false_iff_lookup c key).mp hcF] at hm'
      exact Option.noConfusion hm'
    have hb : (c.put key val).mKeysByFreq
        = updF (if c.size = c.mCapacity then c.evict else c).mKeysByFreq 1
            (key :: (if c.size = c.mCapacity then c.evict else c).mKeysByFreq 1) := by
      rw [put_new_spec c key val hcF]
    have hc1sub : ∀ f, ((if c.size = c.mCapacity then c.evict else c).mKeysByFreq f).Sublist
        (c.mKeysByFreq f) := by
      intro f
      split
      · exact evict_bucket_sublist c f
      · exact List.Sublist.refl _
    intro f
    rcases eq_or_ne f 1 with rfl | hf1
    · refine ⟨(if c.size = c.mCapacity then c.evict else c).mKeysByFreq 1, hc1sub 1,
        fun hk => hkabs 1 ((hc1sub 1).mem hk), Or.inl ?_⟩
      rw [hb, updF_self]
    · refine ⟨(if c.size = c.mCapacity then c.evict else c).mKeysByFreq f, hc1sub f,
        fun hk => hkabs f ((hc1sub f).mem hk), Or.inr ?_⟩
      rw [hb, updF_ne _ _ hf1]

theorem get_bucket_shape (c : LFUCache K V) (hInv : CacheInv c) (key : K) :
    ∀ f, ∃ L, L.Sublist (c.mKeysByFreq f) ∧ key ∉ L
      ∧ (((c.get key).2).mKeysByFreq f = key :: L ∨ ((c.get key).2).mKeysByFreq f = L) := by
  by_cases hc : c.contains key = true
  · obtain ⟨meta, hm⟩ := (contains_iff_lookup c key).mp hc
    have hb : ((c.get key).2).mKeysByFreq = (c.touch key).mKeysByFreq := by
      rw [get_hit_spec c key meta hm]
    intro f
    obtain ⟨L, h1, h2, h3⟩ := touch_bucket_shape c hInv key meta hm f
    refine ⟨L, h1, h2, ?_⟩
    rw [hb]
    exact h3
  · have hcF : c.contains key = false := by
      simpa using hc
    have hb : (c.get key).2 = c.put key default := by
      rw [get_miss_spec c key hcF]
    intro f
    obtain ⟨L, h1, h2, h3⟩ := put_bucket_shape c hInv key default f
    refine ⟨L, h1, h2, ?_⟩
    rw [hb]
    exact h3

end LFUCache

theorem ginv_init {K V : Type} [DecidableEq K] [Inhabited V]
    (capacity : Nat) (h : 1 ≤ capacity) : GInv (GCache.init (K := K) (V := V) capacity) := by
  refine ⟨LFUCache.cacheInv_init capacity h, ?_, ?_, ?_⟩
  · intro k t ht
    simp [GCache.init, lookupA] at ht
  · intro f k hk
    simp [GCache.init, LFUCache.init] at hk
  · intro f
    simp [GCache.init, LFUCache.init]

theorem ginv_gApplyOp {K V : Type} [DecidableEq K] [Inhabited V]
    (g : GCache K V) (op : Op K V) (hGI : GInv g) : GInv (gApplyOp g op) := by
  cases op with
  | contains k => exact hGI
  | size => exact hGI
  | empty => exact hGI
  | get key =>
    have hshape := LFUCache.get_bucket_shape g.cache hGI.cacheInv key
    exact ⟨LFUCache.cacheInv_get g.cache key hGI.cacheInv, clock_bound_step g hGI key,
      hasTime_step g hGI key _ hshape, sorted_step g hGI key _ hshape⟩
  | put key val =>
    have hshape := LFUCache.put_bucket_shape g.cache hGI.cacheInv key val
    exact ⟨LFUCache.cacheInv_put g.cache key val hGI.cacheInv, clock_bound_step g hGI key,
      hasTime_step g hGI key _ hshape, sorted_step g hGI key _ hshape⟩

theorem greachable_ginv {K V : Type} [DecidableEq K] [Inhabited V]
    (g : GCache K V) (h : GReachable g) : GInv g := by
  induction h with
  | init cap hcap => exact ginv_init cap hcap
  | step g op hg ih => exact ginv_gApplyOp g op ih

/-- C1: in every reachable instrumented state where a put of a brand-new
key triggers eviction (key absent, cache at capacity), the removed key is
the back of the minimum-frequency bucket; it is present beforehand, its
frequency equals the tracked minimum, every present key's frequency is at
least that minimum, and among the keys tied at the minimum it was touched
strictly earliest; the put removes exactly that one key (every other
present key survives) and one eviction plus one insert leave the size
unchanged. -/
theorem C1_eviction_is_min_freq_lru {K V : Type} [DecidableEq K] [Inhabited V]
    (g : GCache K V) (key : K) (val : V)
    (hg : GReachable g)
    (habs : g.cache.contains key = false)
    (hfull : g.cache.size = g.cache.mCapacity) :
    ∃ ev : K,
      (g.cache.mKeysByFreq g.cache.mMinFreq).getLast? = some ev
      ∧ g.cache.contains ev = true
      ∧ g.cache.freqOf ev = g.cache.mMinFreq
      ∧ (∀ j, g.cache.contains j = true → g.cache.mMinFreq ≤ g.cache.freqOf j)
      ∧ (∀ j, g.cache.contains j = true → g.cache.freqOf j = g.cache.mMinFreq → j ≠ ev →
          touchTime g ev < touchTime g j)
      ∧ (g.cache.put key val).contains ev = false
      ∧ (∀ j, g.cache.contains j = true →
          ((g.cache.put key val).contains j = true ↔ j ≠ ev))
      ∧ (g.cache.put key val).size = g.cache.size := by
  have hGI := greachable_ginv g hg
  have hInv := hGI.cacheInv
  have hne : g.cache.mKeyMetaByKey ≠ [] := by
    have hpos : 0 < g.cache.size := lt_of_lt_of_le hInv.capPos (le_of_eq hfull.symm)
    exact List.length_pos.mp hpos
  obtain ⟨ev, hev, ⟨mev, hmev, hfev⟩, hcapE, hminE, hndE, hbndE, hmemE, hfpE,
    hszE, hlookE, hlookEv⟩ := LFUCache.evict_facts g.cache hInv hne
  have habsN : lookupA g.cache.mKeyMetaByKey key = none :=
    (LFUCache.contains_false_iff_lookup _ key).mp habs
  have hkev : key ≠ ev := by
    intro hkey
    rw [hkey, hmev] at habsN
    exact Option.noConfusion habsN
  have hputmap : (g.cache.put key val).mKeyMetaByKey
      = insertA (g.cache.evict).mKeyMetaByKey key ⟨1, val⟩ := by
    rw [LFUCache.put_new_spec g.cache key val habs, if_pos hfull]
  have hput_ev : (g.cache.put key val).contains ev = false := by
    show (lookupA (g.cache.put key val).mKeyMetaByKey ev).isSome = false
    rw [hputmap, lookupA_insertA_ne _ _ (Ne.symm hkev), hlookEv]
    rfl
  refine ⟨ev, hev, ?_, ?_, ?_, ?_, hput_ev, ?_, ?_⟩
  · simp [LFUCache.contains, hmev]
  · simp [LFUCache.freqOf, hmev, hfev]
  · intro j hj
    obtain ⟨mj, hmj⟩ := (LFUCache.contains_iff_lookup _ j).mp hj
    have hjmem : j ∈ g.cache.mKeysByFreq mj.freq :=
      (hInv.mem_bucket_iff j mj.freq).mpr ⟨mj, hmj, rfl⟩
    have hle := hInv.minFreq_le mj.freq (List.ne_nil_of_mem hjmem)
    simpa [LFUCache.freqOf, hmj] using hle
  · intro j hj hfj hjev
    obtain ⟨mj, hmj⟩ := (LFUCache.contains_iff_lookup _ j).mp hj
    have hfj' : mj.freq = g.cache.mMinFreq := by
      simpa [LFUCache.freqOf, hmj] using hfj
    have hjmem : j ∈ g.cache.mKeysByFreq g.cache.mMinFreq :=
      (hInv.mem_bucket_iff j g.cache.mMinFreq).mpr ⟨mj, hmj, hfj'⟩
    have hsplit := dropLast_append_of_getLast _ ev hev
    have hsorted := hGI.sorted g.cache.mMinFreq
    rw [← hsplit] at hsorted hjmem
    have hjdrop : j ∈ (g.cache.mKeysByFreq g.cache.mMinFreq).dropLast := by
      rcases List.mem_append.mp hjmem with h | h
      · exact h
      · exact absurd (List.mem_singleton.mp h) hjev
    rw [List.pairwise_append] at hsorted
    exact hsorted.2.2 j hjdrop ev (List.mem_singleton_self ev)
  · intro j hj
    by_cases hjev : j = ev
    · subst hjev
      rw [hput_ev]
      simp
    · obtain ⟨mj, hmj⟩ := (LFUCache.contains_iff_lookup _ j).mp hj
      have hjkey : j ≠ key := by
        intro hh
        rw [hh, habsN] at hmj
        exact Option.noConfusion hmj
      have : lookupA (g.cache.put key val).mKeyMetaByKey j = some mj := by
        rw [hputmap, lookupA_insertA_ne _ _ hjkey, hlookE j hjev, hmj]
      simp [LFUCache.contains, this, hjev]
  · show (g.cache.put key val).mKeyMetaByKey.length = g.cache.mKeyMetaByKey.length
    rw [hputmap, length_insertA_of_none _ _ _ (by rw [hlookE key hkev]; exact habsN)]
    exact hszE

/-- Witness for C1: capacity-2 cache holding keys 1 (older) and 2 when
key 3 is inserted. -/
theorem C1_eviction_is_min_freq_lru_witness :
    GReachable (gApplyOp (gApplyOp (GCache.init 2 : GCache Nat Nat) (Op.put 1 10)) (Op.put 2 20))
    ∧ (gApplyOp (gApplyOp (GCache.init 2 : GCache Nat Nat) (Op.put 1 10)) (Op.put 2 20)).cache.contains 3 = false
    ∧ (gApplyOp (gApplyOp (GCache.init 2 : GCache Nat Nat) (Op.put 1 10)) (Op.put 2 20)).cache.size
        = (gApplyOp (gApplyOp (GCache.init 2 : GCache Nat Nat) (Op.put 1 10)) (Op.put 2 20)).cache.mCapacity
    ∧ (∃ ev : Nat,
        ((gApplyOp (gApplyOp (GCache.init 2 : GCache Nat Nat) (Op.put 1 10)) (Op.put 2 20)).cache.mKeysByFreq
            (gApplyOp (gApplyOp (GCache.init 2 : GCache Nat Nat) (Op.put 1 10)) (Op.put 2 20)).cache.mMinFreq).getLast? = some ev
        ∧ (gApplyOp (gApplyOp (GCache.init 2 : GCache Nat Nat) (Op.put 1 10)) (Op.put 2 20)).cache.contains ev = true
        ∧ (gApplyOp (gApplyOp (GCache.init 2 : GCache Nat Nat) (Op.put 1 10)) (Op.put 2 20)).cache.freqOf ev
            = (gApplyOp (gApplyOp (GCache.init 2 : GCache Nat Nat) (Op.put 1 10)) (Op.put 2 20)).cache.mMinFreq
        ∧ (∀ j, (gApplyOp (gApplyOp (GCache.init 2 : GCache Nat Nat) (Op.put 1 10)) (Op.put 2 20)).cache.contains j = true →
            (gApplyOp (gApplyOp (GCache.init 2 : GCache Nat Nat) (Op.put 1 10)) (Op.put 2 20)).cache.mMinFreq
              ≤ (gApplyOp (gApplyOp (GCache.init 2 : GCache Nat Nat) (Op.put 1 10)) (Op.put 2 20)).cache.freqOf j)
        ∧ (∀ j, (gApplyOp (gApplyOp (GCache.init 2 : GCache Nat Nat) (Op.put 1 10)) (Op.put 2 20)).cache.contains j = true →
            (gApplyOp (gApplyOp (GCache.init 2 : GCache Nat Nat) (Op.put 1 10)) (Op.put 2 20)).cache.freqOf j
              = (gApplyOp (gApplyOp (GCache.init 2 : GCache Nat Nat) (Op.put 1 10)) (Op.put 2 20)).cache.mMinFreq →
            j ≠ ev →
            touchTime (gApplyOp (gApplyOp (GCache.init 2 : GCache Nat Nat) (Op.put 1 10)) (Op.put 2 20)) ev
              < touchTime (gApplyOp (gApplyOp (GCache.init 2 : GCache Nat Nat) (Op.put 1 10)) (Op.put 2 20)) j)
        ∧ ((gApplyOp (gApplyOp (GCache.init 2 : GCache Nat Nat) (Op.put 1 10)) (Op.put 2 20)).cache.put 3 30).contains ev = false
        ∧ (∀ j, (gApplyOp (gApplyOp (GCache.init 2 : GCache Nat Nat) (Op.put 1 10)) (Op.put 2 20)).cache.contains j = true →
            (((gApplyOp (gApplyOp (GCache.init 2 : GCache Nat Nat) (Op.put 1 10)) (Op.put 2 20)).cache.put 3 30).contains j = true ↔ j ≠ ev))
        ∧ ((gApplyOp (gApplyOp (GCache.init 2 : GCache Nat Nat) (Op.put 1 10)) (Op.put 2 20)).cache.put 3 30).size
            = (gApplyOp (gApplyOp (GCache.init 2 : GCache Nat Nat) (Op.put 1 10)) (Op.put 2 20)).cache.size) := by
  have hg : GReachable (gApplyOp (gApplyOp (GCache.init 2 : GCache Nat Nat) (Op.put 1 10)) (Op.put 2 20)) :=
    GReachable.step _ (Op.put 2 20) (GReachable.step _ (Op.put 1 10) (GReachable.init 2 (by decide)))
  exact ⟨hg, by decide, by decide,
    C1_eviction_is_min_freq_lru _ 3 30 hg (by decide) (by decide)⟩
